import Mathlib

/-!
# Verification of the USBVault ingest core

A shallow embedding of the media-vault daemon's ingest core
(`internal/config`, `internal/media`, `internal/geocode`, `internal/ingest`,
`internal/audit`, `internal/db`) together with proofs and refutations of the
frozen specification claims.

Modelling conventions:

* Go strings are Lean `String`s; most helpers are defined over `List Char`
  with `String` wrappers.  Byte-level UTF-8 details are not modelled; every
  string operation used here (trimming, splitting, prefix tests, ordering)
  agrees with its Go counterpart on Unicode code points, and Go's byte-wise
  string order coincides with code-point order under UTF-8.
* The platform is POSIX (GOOS != windows): `config.PathKey` is
  `filepath.Clean`, the path separator is `/`.
* `strings.ToLower` is modelled on the ASCII range (the only range relevant
  to the compared literals).
* Filesystem and database effects are modelled by explicit state
  (`World`): the set of library files is a list of paths, the catalog a
  list of rows, the audit log a list of entries.  Steps whose outcome
  depends on the external environment (stat, hashing, EXIF extraction,
  destination-path allocation, the SQL insert result) are oracle fields of
  an environment record, exactly mirroring how the source merely branches
  on those results.
* `float64` coordinates are modelled as rationals; `math.Round`
  (half away from zero) and `%.3f` formatting (including the `-0.000`
  rendering of negatively-signed values that round to zero) are modelled
  exactly over ℚ.
-/

/-! ## Go string primitives -/

/-- The set Go's `unicode.IsSpace` accepts (`strings.TrimSpace` cutset). -/
def isGoSpace (c : Char) : Bool :=
  c = ' ' ∨ c = '\t' ∨ c = '\n' ∨ c.val = 11 ∨ c.val = 12 ∨ c = '\r' ∨
  c.val = 0x85 ∨ c.val = 0xA0 ∨ c.val = 0x1680 ∨
  (0x2000 ≤ c.val ∧ c.val ≤ 0x200A) ∨ c.val = 0x2028 ∨ c.val = 0x2029 ∨
  c.val = 0x202F ∨ c.val = 0x205F ∨ c.val = 0x3000

/-- Drop leading Go whitespace from a character list. -/
def dropSpaceL : List Char → List Char
  | [] => []
  | c :: r => if isGoSpace c then dropSpaceL r else c :: r

/-- `strings.TrimSpace` over `List Char`. -/
def goTrimSpaceL (cs : List Char) : List Char :=
  ((dropSpaceL cs).reverse |> dropSpaceL).reverse

/-- `strings.TrimSpace`. -/
def goTrimSpace (s : String) : String :=
  (goTrimSpaceL s.toList).asString

/-- `strings.ToLower`, ASCII fragment (sufficient for all literals compared
in the embedded code). -/
def goToLowerChar (c : Char) : Char :=
  if 'A' ≤ c ∧ c ≤ 'Z' then Char.ofNat (c.toNat + 32) else c

/-- `strings.ToLower` on strings. -/
def goToLower (s : String) : String :=
  (s.toList.map goToLowerChar).asString

/-! ## Storage layout normalization (`ingest.normalizeStorageLayout`) -/

/-- `ingest.storageLayoutDate`. -/
def storageLayoutDate : String := "date"

/-- `ingest.storageLayoutLocationDate`. -/
def storageLayoutLocationDate : String := "location_date"

/-- `ingest.normalizeStorageLayout` (ingest.go:605-617), case for case. -/
def normalizeStorageLayout (raw : String) : String :=
  let r := goTrimSpace (goToLower raw)
  if r = storageLayoutDate then storageLayoutDate
  else if r = storageLayoutLocationDate then storageLayoutLocationDate
  else if r = "" then storageLayoutLocationDate
  else storageLayoutLocationDate

/-- The layout chosen by `ProcessMount` (ingest.go:185-188): default
`location_date`, replaced by the normalized setting when the setting row
exists. -/
def processMountLayout (setting : Option String) : String :=
  match setting with
  | some raw => normalizeStorageLayout raw
  | none => storageLayoutLocationDate

/-! ## Geocode key rounding (`geocode.round`, `ReverseGeocoder.Reverse`) -/

/-- `math.Round`: nearest integer, half away from zero, over ℚ.
(`Rat.floor` is used rather than `⌊·⌋` so that concrete instances reduce in
the kernel; the two agree, see `ratFloor_eq_intFloor`.) -/
def goRoundZ (x : ℚ) : ℤ :=
  if 0 ≤ x then (x + 1/2).floor else -(-x + 1/2).floor

/-- `geocode.round(v, decimals)` for `decimals = 3`:
`math.Round(v*1000)/1000`. -/
def round3 (v : ℚ) : ℚ := (goRoundZ (v * 1000) : ℚ) / 1000

/-- Left-pad a numeral to three digits (the fractional digits of `%.3f`). -/
def pad3 (n : Nat) : String :=
  if n < 10 then "00" ++ toString n
  else if n < 100 then "0" ++ toString n
  else toString n

/-- `fmt.Sprintf("%.3f", v)` for `v` an exact multiple of 1/1000 carrying a
float sign: `n` is the value in thousandths, `neg` the float sign bit (Go
renders `-0.000` when a negative value rounds to negative zero). -/
def fmtMil (n : ℤ) (neg : Bool) : String :=
  (if n < 0 ∨ (n = 0 ∧ neg) then "-" else "") ++
    toString (n.natAbs / 1000) ++ "." ++ pad3 (n.natAbs % 1000)

/-- The cache key built by `ReverseGeocoder.Reverse` (geocode.go:89-91):
`fmt.Sprintf("%.3f,%.3f", round(lat,3), round(lon,3))`.  The sign of a
zero result is the sign of the rounded float, i.e. of the unrounded
coordinate. -/
def geoKey (lat lon : ℚ) : String :=
  fmtMil (goRoundZ (lat * 1000)) (decide (lat < 0)) ++ "," ++
    fmtMil (goRoundZ (lon * 1000)) (decide (lon < 0))

/-! ## Facts about rounding and the geocode key -/

/-- `Rat.floor` agrees with the mathematical floor. -/
theorem ratFloor_eq_intFloor (x : ℚ) : x.floor = ⌊x⌋ := by
  rw [Rat.floor_def', Rat.floor_def]

/-- When `x + 1/2` lies strictly inside the unit interval `(n, n+1)`,
`math.Round x = n` (both sign branches agree away from half-integers). -/
theorem goRoundZ_of_between (x : ℚ) (n : ℤ) (h1 : (n : ℚ) < x + 1/2)
    (h2 : x + 1/2 < n + 1) : goRoundZ x = n := by
  have hfl : ⌊x + 1/2⌋ = n := Int.floor_eq_iff.mpr ⟨le_of_lt h1, by linarith⟩
  have hcl : ⌈x + 1/2⌉ = n + 1 := by
    rw [Int.ceil_eq_iff]
    constructor
    · push_cast; linarith
    · push_cast; linarith
  rw [goRoundZ]
  split
  · rw [ratFloor_eq_intFloor]; exact hfl
  · rw [ratFloor_eq_intFloor]
    have e : (-x + 1/2 : ℚ) = -(x + 1/2) + 1 := by ring
    rw [e, Int.floor_add_one, Int.floor_neg, hcl]
    ring

/-- The float sign bit only matters in `%.3f` output when the value in
thousandths is zero. -/
theorem fmtMil_sign_irrel (n : ℤ) (a b : Bool) (h : n = 0 → a = b) :
    fmtMil n a = fmtMil n b := by
  by_cases hn : n = 0
  · rw [h hn]
  · rw [fmtMil, fmtMil]
    have e : (n < 0 ∨ (n = 0 ∧ a = true)) ↔ (n < 0 ∨ (n = 0 ∧ b = true)) := by
      simp [hn]
    rw [if_congr e rfl rfl]

/-- C9, counterexample: the claimed invariance of `geo_key` under any
perturbation `|ε| < 5e-4` is false: at `lat = lon = 1/2000 = 0.0005` the
perturbation `ε = -1/2500 = -0.0004` crosses the rounding boundary, moving
the key from `"0.001,0.001"` to `"0.000,0.000"`. -/
theorem c9_geo_key_counterexample :
    ¬ (∀ lat lon ε : ℚ, |ε| < 5/10000 →
        geoKey lat lon = geoKey (lat + ε) (lon + ε)) := by
  intro h
  have hk1 : goRoundZ ((1:ℚ)/2000 * 1000) = 1 := by
    rw [goRoundZ, if_pos (by norm_num : (0:ℚ) ≤ 1/2000 * 1000), ratFloor_eq_intFloor]
    norm_num
  have hk2 : goRoundZ (((1:ℚ)/2000 + -(1/2500)) * 1000) = 0 :=
    goRoundZ_of_between _ 0 (by norm_num) (by norm_num)
  have hs2 : decide (((1:ℚ)/2000 + -(1/2500)) < 0) = false := by
    rw [decide_eq_false_iff_not]; norm_num
  have he := h (1/2000) (1/2000) (-(1/2500)) (by rw [abs]; norm_num)
  rw [geoKey, geoKey, hk1, hk2, hs2] at he
  exact absurd he (by decide)

/-- C9, amended: `geo_key(lat, lon) = geo_key(lat+ε, lon+ε)` for `|ε| < 5e-4`
provided no rounding boundary is hit or crossed — each scaled coordinate plus
one half stays strictly inside a single unit interval `(n, n+1)` — and, when
a coordinate rounds to zero, the perturbation does not change its sign (the
formatter renders negatively-signed zero as `-0.000`). -/
theorem c9_geo_key_amended (lat lon ε : ℚ) (_hε : |ε| < 5/10000)
    (n m : ℤ)
    (hn1 : (n : ℚ) < lat * 1000 + 1/2) (hn2 : lat * 1000 + 1/2 < n + 1)
    (hn3 : (n : ℚ) < (lat + ε) * 1000 + 1/2) (hn4 : (lat + ε) * 1000 + 1/2 < n + 1)
    (hm1 : (m : ℚ) < lon * 1000 + 1/2) (hm2 : lon * 1000 + 1/2 < m + 1)
    (hm3 : (m : ℚ) < (lon + ε) * 1000 + 1/2) (hm4 : (lon + ε) * 1000 + 1/2 < m + 1)
    (hsn : n = 0 → (lat < 0 ↔ lat + ε < 0))
    (hsm : m = 0 → (lon < 0 ↔ lon + ε < 0)) :
    geoKey lat lon = geoKey (lat + ε) (lon + ε) := by
  rw [geoKey, geoKey,
    goRoundZ_of_between (lat * 1000) n hn1 hn2,
    goRoundZ_of_between ((lat + ε) * 1000) n hn3 hn4,
    goRoundZ_of_between (lon * 1000) m hm1 hm2,
    goRoundZ_of_between ((lon + ε) * 1000) m hm3 hm4,
    fmtMil_sign_irrel n (decide (lat < 0)) (decide (lat + ε < 0))
      (fun h0 => by rw [decide_eq_decide]; exact hsn h0),
    fmtMil_sign_irrel m (decide (lon < 0)) (decide (lon + ε < 0))
      (fun h0 => by rw [decide_eq_decide]; exact hsm h0)]

/-- C9 witness: the amended theorem applied at `lat = lon = 0`,
`ε = 1/4000`. -/
theorem c9_geo_key_amended_witness :
    geoKey 0 0 = geoKey (0 + 1/4000) (0 + 1/4000) :=
  c9_geo_key_amended 0 0 (1/4000) (by rw [abs]; norm_num) 0 0
    (by norm_num) (by norm_num) (by norm_num) (by norm_num)
    (by norm_num) (by norm_num) (by norm_num) (by norm_num)
    (fun _ => by constructor <;> (intro h; exact absurd h (by norm_num)))
    (fun _ => by constructor <;> (intro h; exact absurd h (by norm_num)))

/-- C10: `normalizeStorageLayout` returns `"date"` exactly when the
lowercased, trimmed raw setting is `"date"` and `"location_date"` for every
other input, and `ProcessMount`'s layout selection maps an absent setting to
`"location_date"` too. -/
theorem c10_storage_layout_normalization (raw : String) :
    normalizeStorageLayout raw =
      (if goTrimSpace (goToLower raw) = "date" then "date" else "location_date")
    ∧ processMountLayout (some raw) = normalizeStorageLayout raw
    ∧ processMountLayout none = "location_date" := by
  refine ⟨?_, rfl, rfl⟩
  by_cases h : goTrimSpace (goToLower raw) = "date" <;>
    simp [normalizeStorageLayout, storageLayoutDate, storageLayoutLocationDate, h]

/-! ## Audit log (`audit.Logger.Log`, `db.InsertAudit`, `db.LastAuditHash`)

The SHA-256 function is abstracted as a parameter `sha : String → String`:
`Logger.Log` only composes it, and every property below holds for the real
hash.  `details_json` is the `json.Marshal` of the details map; both
`Logger.Log` and `InsertAudit` marshal the same map, producing the same
string (Go object marshalling is deterministic), so entries carry the
marshalled string directly. -/

/-- One `audit_logs` row. -/
structure AuditEntry where
  ts : String
  actor : String
  action : String
  detailsJson : String
  prevHash : String
  entryHash : String
deriving DecidableEq, Repr

/-- The preimage string `"ts|actor|action|details_json|prev_hash"`
(server.go audit package, `Logger.Log`). -/
def entryRawOf (ts actor action detailsJson prevHash : String) : String :=
  ts ++ "|" ++ actor ++ "|" ++ action ++ "|" ++ detailsJson ++ "|" ++ prevHash

/-- `db.Store.LastAuditHash` (store.go:1135-1145): the `entry_hash` of the
row with the greatest id, `""` when the table is empty. -/
def lastAuditHash (log : List AuditEntry) : String :=
  match log.getLast? with
  | some e => e.entryHash
  | none => ""

/-- `audit.Logger.Log` followed by `db.Store.InsertAudit`: read the last
hash, build the preimage, hash it, append the row. -/
def logStep (sha : String → String) (log : List AuditEntry)
    (ts actor action detailsJson : String) : List AuditEntry :=
  let prev := lastAuditHash log
  let hash := sha (entryRawOf ts actor action detailsJson prev)
  log ++ [⟨ts, actor, action, detailsJson, prev, hash⟩]

/-- Arguments of one `Logger.Log` call. -/
structure LogCall where
  ts : String
  actor : String
  action : String
  detailsJson : String

/-- A sequence of `Logger.Log` calls against an initially empty table. -/
def runLog (sha : String → String) (calls : List LogCall) : List AuditEntry :=
  calls.foldl (fun log c => logStep sha log c.ts c.actor c.action c.detailsJson) []

/-- The verifier: walking the log with the expected previous hash, check
that each entry links to its predecessor and that its hash is the hash of
its own preimage. -/
def chainOk (sha : String → String) : List AuditEntry → String → Bool
  | [], _ => true
  | e :: rest, prev =>
    (e.prevHash == prev) &&
      (e.entryHash == sha (entryRawOf e.ts e.actor e.action e.detailsJson e.prevHash)) &&
      chainOk sha rest e.entryHash

/-- Adjacent-link check: `entry[i].prev_hash = entry[i-1].entry_hash`. -/
def linksOk : List AuditEntry → Bool
  | [] => true
  | [_] => true
  | a :: b :: r => (b.prevHash == a.entryHash) && linksOk (b :: r)

/-- The hash a verifier expects the next appended entry to cite: the last
entry's hash, or the hash expected of the whole log when it is empty. -/
def lastHashD (p : String) : List AuditEntry → String
  | [] => p
  | e :: r => lastHashD e.entryHash r

theorem lastHashD_eq_getLast (p : String) (log : List AuditEntry) :
    lastHashD p log = match log.getLast? with
      | some e => e.entryHash
      | none => p := by
  induction log generalizing p with
  | nil => rfl
  | cons a l ih =>
    cases l with
    | nil => simp [lastHashD]
    | cons b r =>
      rw [lastHashD, ih, List.getLast?_cons_cons]
      cases hgl : (b :: r).getLast? with
      | none => exact absurd (List.getLast?_eq_none_iff.mp hgl) (List.cons_ne_nil b r)
      | some e => rfl

theorem lastAuditHash_eq_lastHashD (log : List AuditEntry) :
    lastAuditHash log = lastHashD "" log := by
  rw [lastAuditHash, lastHashD_eq_getLast]

theorem lastHashD_append (p : String) (log : List AuditEntry) (e : AuditEntry) :
    lastHashD p (log ++ [e]) = e.entryHash := by
  induction log generalizing p with
  | nil => rfl
  | cons a l ih => rw [List.cons_append, lastHashD, ih]

theorem lastAuditHash_append (log : List AuditEntry) (e : AuditEntry) :
    lastAuditHash (log ++ [e]) = e.entryHash := by
  rw [lastAuditHash_eq_lastHashD, lastHashD_append]

theorem chainOk_append (sha : String → String) (log : List AuditEntry)
    (prev : String) (e : AuditEntry)
    (h : chainOk sha log prev = true)
    (hp : e.prevHash = lastHashD prev log)
    (hh : e.entryHash = sha (entryRawOf e.ts e.actor e.action e.detailsJson e.prevHash)) :
    chainOk sha (log ++ [e]) prev = true := by
  induction log generalizing prev with
  | nil =>
    simp only [List.nil_append, chainOk, Bool.and_eq_true, beq_iff_eq]
    exact ⟨⟨hp, hh⟩, trivial⟩
  | cons a l ih =>
    rw [chainOk, Bool.and_eq_true, Bool.and_eq_true] at h
    rw [List.cons_append, chainOk, Bool.and_eq_true, Bool.and_eq_true]
    exact ⟨h.1, ih a.entryHash h.2 hp⟩

theorem chainOk_imp_linksOk (sha : String → String) :
    ∀ (log : List AuditEntry) (prev : String),
      chainOk sha log prev = true → linksOk log = true
  | [], _, _ => rfl
  | [_], _, _ => rfl
  | a :: b :: r, prev, h => by
    rw [chainOk] at h
    simp only [Bool.and_eq_true] at h
    have htail := h.2
    have hlink := htail
    rw [chainOk] at hlink
    simp only [Bool.and_eq_true] at hlink
    rw [linksOk]
    simp only [Bool.and_eq_true]
    exact ⟨hlink.1.1, chainOk_imp_linksOk sha (b :: r) a.entryHash htail⟩

theorem chainOk_foldl (sha : String → String) (calls : List LogCall) :
    ∀ (log : List AuditEntry) (prev : String),
      chainOk sha log prev = true →
      lastHashD prev log = lastAuditHash log →
      chainOk sha
        (calls.foldl
          (fun log c => logStep sha log c.ts c.actor c.action c.detailsJson) log)
        prev = true := by
  induction calls with
  | nil => intro log prev h _; exact h
  | cons c cs ih =>
    intro log prev h hlast
    rw [List.foldl_cons]
    refine ih _ prev ?_ ?_
    · refine chainOk_append sha log prev _ h ?_ rfl
      rw [hlast]
    · rw [logStep]
      rw [lastHashD_append, lastAuditHash_append]

/-- C2: every entry appended by the audit logger cites the previously-last
entry's hash (empty for the first), its own hash is `sha` of its preimage
`"ts|actor|action|details_json|prev_hash"`, and after any sequence of `Log`
calls against an initially empty table the whole chain verifies and every
adjacent pair links (`entry[i].prev_hash = entry[i-1].entry_hash`). -/
theorem c2_audit_chain_verifies (sha : String → String) (calls : List LogCall) :
    chainOk sha (runLog sha calls) "" = true
    ∧ linksOk (runLog sha calls) = true
    ∧ ∀ (log : List AuditEntry) (ts actor action dj : String),
        logStep sha log ts actor action dj =
          log ++ [⟨ts, actor, action, dj, lastAuditHash log,
            sha (entryRawOf ts actor action dj (lastAuditHash log))⟩] := by
  have hchain : chainOk sha (runLog sha calls) "" = true :=
    chainOk_foldl sha calls [] "" rfl rfl
  exact ⟨hchain, chainOk_imp_linksOk sha _ "" hchain, fun _ _ _ _ _ => rfl⟩

/-! ## Paths (`filepath.Clean`, `filepath.IsAbs`, `config.PathKey`,
`config.IsPathWithin`, `ingest.shouldSkipMount`) -/

/-- `strings.Split`-style splitting on a single character:
`splitOnChar '/' "a//b" = ["a", "", "b"]`, `splitOnChar '/' "" = [""]`. -/
def splitOnChar (sep : Char) : List Char → List (List Char)
  | [] => [[]]
  | c :: r =>
    if c = sep then [] :: splitOnChar sep r
    else
      match splitOnChar sep r with
      | h :: t => (c :: h) :: t
      | [] => [[c]]

/-- Join path components with `/`. -/
def joinComps : List (List Char) → List Char
  | [] => []
  | [c] => c
  | c :: r => c ++ '/' :: joinComps r

/-- The `..` component. -/
def dotdot : List Char := ['.', '.']

/-- One step of `filepath.Clean`'s element processing: `..` pops the last
real component; at the boundary it is dropped when the path is rooted and
kept otherwise.  The accumulator is the output stack, most recent first. -/
def cleanStep (rooted : Bool) (st : List (List Char)) (c : List Char) :
    List (List Char) :=
  if c = dotdot then
    match st with
    | t :: rest => if t ≠ dotdot then rest else if rooted then st else c :: st
    | [] => if rooted then [] else [c]
  else c :: st

/-- `filepath.Clean` (POSIX): lexical processing of `.`/`..`/empty
components.  Formulated component-wise; equal to Go's in-place scanner. -/
def goCleanL (cs : List Char) : List Char :=
  if cs = [] then ['.']
  else
    let rooted := cs.head? = some '/'
    let comps := (splitOnChar '/' cs).filter (fun c => ¬(c = [] ∨ c = ['.']))
    let out := (comps.foldl (cleanStep rooted) []).reverse
    if rooted then '/' :: joinComps out
    else if out = [] then ['.']
    else joinComps out

/-- `filepath.Clean` on strings. -/
def goClean (s : String) : String := (goCleanL s.toList).asString

/-- `filepath.IsAbs` (POSIX): begins with `/`. -/
def goIsAbs (s : String) : Bool := s.toList.head? = some '/'

/-- `config.PathKey` (config.go:87-93) on a POSIX host: `filepath.Clean`
without lowercasing. -/
def pathKey (s : String) : String := goClean s

/-- Boolean prefix test on character lists (`p` is a prefix of `s`). -/
def isPre : List Char → List Char → Bool
  | [], _ => true
  | _ :: _, [] => false
  | p :: ps, c :: cs => p = c && isPre ps cs

/-- `strings.HasPrefix s pre`. -/
def goStartsWith (s pre : String) : Bool := isPre pre.toList s.toList

/-- `strings.HasSuffix s suffix`. -/
def goEndsWith (s suffix : String) : Bool :=
  isPre suffix.toList.reverse s.toList.reverse

/-- `strings.TrimSuffix key "/"`. -/
def trimSlashSuffix (s : String) : String :=
  match s.toList.reverse with
  | '/' :: r => r.reverse.asString
  | _ => s

/-- `config.normalizePathForCompare` (pathpolicy.go:78-85). -/
def normalizePathForCompare (path : String) : String :=
  let key := pathKey (goClean path)
  if key = "/" then key else trimSlashSuffix key

/-- `config.IsPathWithin` (pathpolicy.go:62-76). -/
def isPathWithin (path parent : String) : Bool :=
  let p := normalizePathForCompare path
  let par := normalizePathForCompare parent
  if p = "" ∨ par = "" then false
  else if p = par then true
  else if par = "/" then goStartsWith p "/"
  else goStartsWith p (par ++ "/")

/-- `ingest.shouldSkipMount` (ingest.go:326-339). -/
def shouldSkipMount (mountPath baseStorage : String)
    (excludedMounts : List String) : Bool :=
  (isPathWithin baseStorage mountPath || isPathWithin mountPath baseStorage) ||
    excludedMounts.any fun excluded =>
      isPathWithin mountPath excluded || isPathWithin excluded mountPath

/-! ## JSON for `[]string` (`encoding/json` as used by the path policy)

`json.Marshal` with its default HTML escaping, and `json.Unmarshal` into a
`[]string` (accepting `null` elements, which leave the zero value `""`, and
rejecting anything else, control characters in strings, or trailing
input). -/

/-- Lowercase hexadecimal digit. -/
def hexDigitChar (n : Nat) : Char :=
  if n < 10 then Char.ofNat (48 + n) else Char.ofNat (87 + n)

/-- `encoding/json`'s escaping of one character (HTML escaping on, as in
`json.Marshal`). -/
def escChar (c : Char) : List Char :=
  if c = '"' then ['\\', '"']
  else if c = '\\' then ['\\', '\\']
  else if c = '<' then ['\\', 'u', '0', '0', '3', 'c']
  else if c = '>' then ['\\', 'u', '0', '0', '3', 'e']
  else if c = '&' then ['\\', 'u', '0', '0', '2', '6']
  else if c = '\n' then ['\\', 'n']
  else if c = '\r' then ['\\', 'r']
  else if c = '\t' then ['\\', 't']
  else if c.toNat < 0x20 then
    ['\\', 'u', '0', '0', hexDigitChar (c.toNat / 16), hexDigitChar (c.toNat % 16)]
  else if c.toNat = 0x2028 then ['\\', 'u', '2', '0', '2', '8']
  else if c.toNat = 0x2029 then ['\\', 'u', '2', '0', '2', '9']
  else [c]

/-- Join character lists with a separator character. -/
def joinSep (sep : Char) : List (List Char) → List Char
  | [] => []
  | [c] => c
  | c :: r => c ++ sep :: joinSep sep r

/-- The encoding of one string literal, quotes included. -/
def encStrL (cs : List Char) : List Char :=
  '"' :: (cs.map escChar).flatten ++ ['"']

/-- `json.Marshal` of a (non-nil) `[]string`. -/
def jsonEncodeStrArr (l : List String) : String :=
  ('[' :: joinSep ',' (l.map fun s => encStrL s.toList) ++ [']']).asString

/-- JSON insignificant whitespace. -/
def isJsonWs (c : Char) : Bool := c = ' ' ∨ c = '\t' ∨ c = '\n' ∨ c = '\r'

/-- Skip JSON whitespace. -/
def skipWs : List Char → List Char
  | [] => []
  | c :: r => if isJsonWs c then skipWs r else c :: r

/-- Value of one hexadecimal digit. -/
def hexVal (c : Char) : Option Nat :=
  if '0' ≤ c ∧ c ≤ '9' then some (c.toNat - 48)
  else if 'a' ≤ c ∧ c ≤ 'f' then some (c.toNat - 87)
  else if 'A' ≤ c ∧ c ≤ 'F' then some (c.toNat - 55)
  else none

/-- Four hexadecimal digits. -/
def hex4 (a b c d : Char) : Option Nat :=
  match hexVal a, hexVal b, hexVal c, hexVal d with
  | some x, some y, some z, some w => some (((x * 16 + y) * 16 + z) * 16 + w)
  | _, _, _, _ => none

/-- Decode a `\uXXXX` escape (after the `u`).  Surrogate pairs combine; an
unpaired or malformed surrogate yields U+FFFD consuming only its own escape,
as in Go's decoder. -/
def pEscU : List Char → Option (Char × List Char)
  | a :: b :: c :: d :: r1 =>
    match hex4 a b c d with
    | none => none
    | some n =>
      if 0xD800 ≤ n ∧ n ≤ 0xDFFF then
        match r1 with
        | e2 :: u2 :: a2 :: b2 :: c2 :: d2 :: r2 =>
          if e2 = '\\' ∧ u2 = 'u' then
            match hex4 a2 b2 c2 d2 with
            | some m =>
              if n < 0xDC00 ∧ 0xDC00 ≤ m ∧ m ≤ 0xDFFF then
                some (Char.ofNat (0x10000 + (n - 0xD800) * 0x400 + (m - 0xDC00)), r2)
              else some (Char.ofNat 0xFFFD, r1)
            | none => some (Char.ofNat 0xFFFD, r1)
          else some (Char.ofNat 0xFFFD, r1)
        | _ => some (Char.ofNat 0xFFFD, r1)
      else some (Char.ofNat n, r1)
  | _ => none

/-- Decode one escape sequence (the character after the backslash and the
rest). -/
def pEsc : List Char → Option (Char × List Char)
  | [] => none
  | e :: r =>
    if e = '"' then some ('"', r)
    else if e = '\\' then some ('\\', r)
    else if e = '/' then some ('/', r)
    else if e = 'b' then some (Char.ofNat 8, r)
    else if e = 'f' then some (Char.ofNat 12, r)
    else if e = 'n' then some ('\n', r)
    else if e = 'r' then some ('\r', r)
    else if e = 't' then some ('\t', r)
    else if e = 'u' then pEscU r
    else none


/-- Decode a JSON string body after the opening quote, up to and including
the closing quote; rejects raw control characters, as Go's decoder does.
Fueled so the recursion is structural; each step consumes at least one
character, so fuel equal to the input length never runs out. -/
def pBodyF : Nat → List Char → Option (List Char × List Char)
  | 0, _ => none
  | fuel + 1, cs =>
    match cs with
    | [] => none
    | c :: r =>
      if c = '"' then some ([], r)
      else if c = '\\' then
        match pEsc r with
        | none => none
        | some (d, r') => (pBodyF fuel r').map fun p => (d :: p.1, p.2)
      else if c.toNat < 0x20 then none
      else (pBodyF fuel r).map fun p => (c :: p.1, p.2)

/-- Decode a JSON string body (see `pBodyF`). -/
def pBody (cs : List Char) : Option (List Char × List Char) :=
  pBodyF cs.length cs

/-- Decode one array element into a Go string: a JSON string, or `null`
(which leaves the string's zero value `""` in place, as `json.Unmarshal`
does). -/
def pElem : List Char → Option (String × List Char)
  | [] => none
  | c :: r =>
    if c = '"' then (pBody r).map fun p => (p.1.asString, p.2)
    else if c = 'n' then
      match r with
      | u :: l1 :: l2 :: r2 =>
        if u = 'u' ∧ l1 = 'l' ∧ l2 = 'l' then some ("", r2) else none
      | _ => none
    else none

/-- Decode the elements of a non-empty array, positioned at the start of an
element; consumes the closing bracket.  Fueled: every iteration consumes at
least one character. -/
def pArrLoopF : Nat → List Char → Option (List String × List Char)
  | 0, _ => none
  | fuel + 1, cs =>
    match pElem cs with
    | none => none
    | some (s, r) =>
      match skipWs r with
      | ',' :: r2 => (pArrLoopF fuel (skipWs r2)).map fun p => (s :: p.1, p.2)
      | ']' :: r2 => some ([s], r2)
      | _ => none

/-- Decode the elements of a non-empty array (see `pArrLoopF`). -/
def pArrLoop (cs : List Char) : Option (List String × List Char) :=
  pArrLoopF cs.length cs

/-- `json.Unmarshal(raw, &[]string{...})`: an array of strings (or nulls)
with insignificant whitespace around tokens, and nothing but whitespace
after it. -/
def parseJsonStringArr (s : String) : Option (List String) :=
  match skipWs s.toList with
  | '[' :: r =>
    match skipWs r with
    | ']' :: rest => if skipWs rest = [] then some [] else none
    | r2 =>
      match pArrLoop r2 with
      | some (l, rest) => if skipWs rest = [] then some l else none
      | none => none
  | _ => none

/-! ## JSON round-trip facts -/

theorem hexVal_hexDigitChar : ∀ k, k < 16 → hexVal (hexDigitChar k) = some k := by decide

theorem hex4_00 (v : Nat) (hv : v < 256) :
    hex4 '0' '0' (hexDigitChar (v / 16)) (hexDigitChar (v % 16)) = some v := by
  have h1 : hexVal (hexDigitChar (v / 16)) = some (v / 16) :=
    hexVal_hexDigitChar _ (by omega)
  have h2 : hexVal (hexDigitChar (v % 16)) = some (v % 16) :=
    hexVal_hexDigitChar _ (by omega)
  rw [hex4, h1, h2]
  simp only [show hexVal '0' = some 0 from rfl]
  congr 1
  omega

theorem pBodyF_enc (cs : List Char) :
    ∀ (fuel : Nat) (rest : List Char), cs.length + 1 ≤ fuel →
      pBodyF fuel ((cs.map escChar).flatten ++ '"' :: rest) = some (cs, rest) := by
  induction cs with
  | nil =>
    intro fuel rest hf
    match fuel, hf with
    | f + 1, _ => rfl
  | cons c cs ih =>
    intro fuel rest hf
    match fuel, hf with
    | f + 1, hf =>
    have hfr : cs.length + 1 ≤ f := by simp at hf; omega
    simp only [List.map_cons, List.flatten_cons, List.append_assoc]
    by_cases h1 : c = '"'
    · subst h1
      have step : pBodyF (f + 1) (escChar '"' ++ ((cs.map escChar).flatten ++ '"' :: rest)) =
          (pBodyF f ((cs.map escChar).flatten ++ '"' :: rest)).map
            (fun p => ('"' :: p.1, p.2)) := rfl
      rw [step, ih f rest hfr]; rfl
    by_cases h2 : c = '\\'
    · subst h2
      have step : pBodyF (f + 1) (escChar '\\' ++ ((cs.map escChar).flatten ++ '"' :: rest)) =
          (pBodyF f ((cs.map escChar).flatten ++ '"' :: rest)).map
            (fun p => ('\\' :: p.1, p.2)) := rfl
      rw [step, ih f rest hfr]; rfl
    by_cases h3 : c = '<'
    · subst h3
      have step : pBodyF (f + 1) (escChar '<' ++ ((cs.map escChar).flatten ++ '"' :: rest)) =
          (pBodyF f ((cs.map escChar).flatten ++ '"' :: rest)).map
            (fun p => ('<' :: p.1, p.2)) := rfl
      rw [step, ih f rest hfr]; rfl
    by_cases h4 : c = '>'
    · subst h4
      have step : pBodyF (f + 1) (escChar '>' ++ ((cs.map escChar).flatten ++ '"' :: rest)) =
          (pBodyF f ((cs.map escChar).flatten ++ '"' :: rest)).map
            (fun p => ('>' :: p.1, p.2)) := rfl
      rw [step, ih f rest hfr]; rfl
    by_cases h5 : c = '&'
    · subst h5
      have step : pBodyF (f + 1) (escChar '&' ++ ((cs.map escChar).flatten ++ '"' :: rest)) =
          (pBodyF f ((cs.map escChar).flatten ++ '"' :: rest)).map
            (fun p => ('&' :: p.1, p.2)) := rfl
      rw [step, ih f rest hfr]; rfl
    by_cases h6 : c = '\n'
    · subst h6
      have step : pBodyF (f + 1) (escChar '\n' ++ ((cs.map escChar).flatten ++ '"' :: rest)) =
          (pBodyF f ((cs.map escChar).flatten ++ '"' :: rest)).map
            (fun p => ('\n' :: p.1, p.2)) := rfl
      rw [step, ih f rest hfr]; rfl
    by_cases h7 : c = '\r'
    · subst h7
      have step : pBodyF (f + 1) (escChar '\r' ++ ((cs.map escChar).flatten ++ '"' :: rest)) =
          (pBodyF f ((cs.map escChar).flatten ++ '"' :: rest)).map
            (fun p => ('\r' :: p.1, p.2)) := rfl
      rw [step, ih f rest hfr]; rfl
    by_cases h8 : c = '\t'
    · subst h8
      have step : pBodyF (f + 1) (escChar '\t' ++ ((cs.map escChar).flatten ++ '"' :: rest)) =
          (pBodyF f ((cs.map escChar).flatten ++ '"' :: rest)).map
            (fun p => ('\t' :: p.1, p.2)) := rfl
      rw [step, ih f rest hfr]; rfl
    by_cases h9 : c.toNat < 0x20
    · rw [escChar, if_neg h1, if_neg h2, if_neg h3, if_neg h4, if_neg h5, if_neg h6,
        if_neg h7, if_neg h8, if_pos h9]
      simp only [List.cons_append, List.nil_append]
      have hpe : pEsc ('u' :: '0' :: '0' :: hexDigitChar (c.toNat / 16) ::
            hexDigitChar (c.toNat % 16) :: ((cs.map escChar).flatten ++ '"' :: rest)) =
          some (c, (cs.map escChar).flatten ++ '"' :: rest) := by
        have hstep : pEsc ('u' :: '0' :: '0' :: hexDigitChar (c.toNat / 16) ::
              hexDigitChar (c.toNat % 16) :: ((cs.map escChar).flatten ++ '"' :: rest)) =
            pEscU ('0' :: '0' :: hexDigitChar (c.toNat / 16) ::
              hexDigitChar (c.toNat % 16) :: ((cs.map escChar).flatten ++ '"' :: rest)) := rfl
        rw [hstep, pEscU, hex4_00 c.toNat (by omega)]
        simp only [if_neg (show ¬(0xD800 ≤ c.toNat ∧ c.toNat ≤ 0xDFFF) by omega)]
        rw [Char.ofNat_toNat]
      have step : pBodyF (f + 1) ('\\' :: 'u' :: '0' :: '0' :: hexDigitChar (c.toNat / 16) ::
            hexDigitChar (c.toNat % 16) :: ((cs.map escChar).flatten ++ '"' :: rest)) =
          match pEsc ('u' :: '0' :: '0' :: hexDigitChar (c.toNat / 16) ::
              hexDigitChar (c.toNat % 16) :: ((cs.map escChar).flatten ++ '"' :: rest)) with
          | none => none
          | some (d, r') => (pBodyF f r').map fun p => (d :: p.1, p.2) := rfl
      have step2 : pBodyF (f + 1) ('\\' :: 'u' :: '0' :: '0' :: hexDigitChar (c.toNat / 16) ::
            hexDigitChar (c.toNat % 16) :: ((cs.map escChar).flatten ++ '"' :: rest)) =
          (pBodyF f ((cs.map escChar).flatten ++ '"' :: rest)).map
            (fun p => (c :: p.1, p.2)) := by
        rw [step, hpe]
      rw [step2, ih f rest hfr]
      rfl
    by_cases h10 : c.toNat = 0x2028
    · have hc : c = Char.ofNat 0x2028 := by
        rw [← h10, Char.ofNat_toNat]
      subst hc
      have step : pBodyF (f + 1)
            (escChar (Char.ofNat 0x2028) ++ ((cs.map escChar).flatten ++ '"' :: rest)) =
          (pBodyF f ((cs.map escChar).flatten ++ '"' :: rest)).map
            (fun p => (Char.ofNat 0x2028 :: p.1, p.2)) := rfl
      rw [step, ih f rest hfr]; rfl
    by_cases h11 : c.toNat = 0x2029
    · have hc : c = Char.ofNat 0x2029 := by
        rw [← h11, Char.ofNat_toNat]
      subst hc
      have step : pBodyF (f + 1)
            (escChar (Char.ofNat 0x2029) ++ ((cs.map escChar).flatten ++ '"' :: rest)) =
          (pBodyF f ((cs.map escChar).flatten ++ '"' :: rest)).map
            (fun p => (Char.ofNat 0x2029 :: p.1, p.2)) := rfl
      rw [step, ih f rest hfr]; rfl
    · rw [escChar, if_neg h1, if_neg h2, if_neg h3, if_neg h4, if_neg h5, if_neg h6,
        if_neg h7, if_neg h8, if_neg h9, if_neg h10, if_neg h11]
      simp only [List.singleton_append]
      rw [pBodyF, if_neg h1, if_neg h2, if_neg h9]
      rw [ih f rest hfr]
      rfl

theorem escChar_length_pos (c : Char) : 1 ≤ (escChar c).length := by
  rw [escChar]
  by_cases h1 : c = '"'
  · rw [if_pos h1]; simp
  rw [if_neg h1]
  by_cases h2 : c = '\\'
  · rw [if_pos h2]; simp
  rw [if_neg h2]
  by_cases h3 : c = '<'
  · rw [if_pos h3]; simp
  rw [if_neg h3]
  by_cases h4 : c = '>'
  · rw [if_pos h4]; simp
  rw [if_neg h4]
  by_cases h5 : c = '&'
  · rw [if_pos h5]; simp
  rw [if_neg h5]
  by_cases h6 : c = '\n'
  · rw [if_pos h6]; simp
  rw [if_neg h6]
  by_cases h7 : c = '\r'
  · rw [if_pos h7]; simp
  rw [if_neg h7]
  by_cases h8 : c = '\t'
  · rw [if_pos h8]; simp
  rw [if_neg h8]
  by_cases h9 : c.toNat < 0x20
  · rw [if_pos h9]; simp
  rw [if_neg h9]
  by_cases h10 : c.toNat = 0x2028
  · rw [if_pos h10]; simp
  rw [if_neg h10]
  by_cases h11 : c.toNat = 0x2029
  · rw [if_pos h11]; simp
  rw [if_neg h11]; simp

theorem flatten_escChar_length (cs : List Char) :
    cs.length ≤ ((cs.map escChar).flatten).length := by
  induction cs with
  | nil => simp
  | cons c r ih =>
    simp only [List.map_cons, List.flatten_cons, List.length_append, List.length_cons]
    have := escChar_length_pos c
    omega

theorem pBody_enc (cs rest : List Char) :
    pBody ((cs.map escChar).flatten ++ '"' :: rest) = some (cs, rest) := by
  rw [pBody]
  apply pBodyF_enc
  have := flatten_escChar_length cs
  simp only [List.length_append, List.length_cons]
  omega

theorem pElem_enc (s : String) (rest : List Char) :
    pElem (encStrL s.toList ++ rest) = some (s, rest) := by
  have step : pElem (encStrL s.toList ++ rest) =
      (pBody ((s.toList.map escChar).flatten ++ '"' :: rest)).map
        (fun p => (p.1.asString, p.2)) := by
    rw [encStrL]
    simp only [List.cons_append, List.append_assoc, List.singleton_append, List.nil_append]
    rfl
  rw [step, pBody_enc s.toList rest]
  rfl

theorem pArrLoopF_step (f : Nat) (cs : List Char) (s : String) (r : List Char)
    (hE : pElem cs = some (s, r)) :
    pArrLoopF (f + 1) cs =
      (match skipWs r with
        | ',' :: r2 => (pArrLoopF f (skipWs r2)).map fun p => (s :: p.1, p.2)
        | ']' :: r2 => some ([s], r2)
        | _ => none) := by
  rw [pArrLoopF, hE]

theorem skipWs_joinSep_enc (x : String) (m : List (List Char)) (z : List Char) :
    skipWs (joinSep ',' (encStrL x.toList :: m) ++ z) =
      joinSep ',' (encStrL x.toList :: m) ++ z := by
  cases m with
  | nil =>
    rw [show joinSep ',' [encStrL x.toList] = encStrL x.toList from rfl, encStrL]
    simp only [List.cons_append, List.append_assoc]
    rfl
  | cons y m2 =>
    rw [show joinSep ',' (encStrL x.toList :: y :: m2) =
        encStrL x.toList ++ ',' :: joinSep ',' (y :: m2) from rfl, encStrL]
    simp only [List.cons_append, List.append_assoc]
    rfl

theorem pArrLoopF_enc (ls : List String) : ∀ (s : String) (fuel : Nat),
    ls.length + 1 ≤ fuel →
    pArrLoopF fuel (joinSep ',' ((s :: ls).map fun t => encStrL t.toList) ++ [']']) =
      some (s :: ls, []) := by
  induction ls with
  | nil =>
    intro s fuel hf
    match fuel, hf with
    | f + 1, _ =>
      rw [List.map_cons, List.map_nil,
        show joinSep ',' [encStrL s.toList] = encStrL s.toList from rfl,
        pArrLoopF_step f _ s [']'] (pElem_enc s [']'])]
      rfl
  | cons s2 ls2 ih =>
    intro s fuel hf
    match fuel, hf with
    | f + 1, hf =>
      have hfr : ls2.length + 1 ≤ f := by simp at hf; omega
      rw [List.map_cons, List.map_cons,
        show joinSep ','
            (encStrL s.toList :: encStrL s2.toList :: ls2.map (fun t => encStrL t.toList)) =
          encStrL s.toList ++
            ',' :: joinSep ',' (encStrL s2.toList :: ls2.map (fun t => encStrL t.toList))
          from rfl]
      simp only [List.append_assoc, List.cons_append]
      rw [pArrLoopF_step f _ s
        (',' :: (joinSep ',' (encStrL s2.toList :: ls2.map (fun t => encStrL t.toList)) ++ [']']))
        (pElem_enc s _)]
      show (pArrLoopF f (skipWs
          (joinSep ',' (encStrL s2.toList :: ls2.map (fun t => encStrL t.toList)) ++ [']']))).map
        (fun p => (s :: p.1, p.2)) = some (s :: s2 :: ls2, [])
      rw [skipWs_joinSep_enc s2 (ls2.map fun t => encStrL t.toList) [']']]
      have ih2 := ih s2 f hfr
      rw [List.map_cons] at ih2
      rw [ih2]
      rfl

theorem joinSep_enc_length (ls : List String) : ∀ s : String,
    ls.length + 1 ≤
      (joinSep ',' ((s :: ls).map fun t => encStrL t.toList) ++ [']']).length := by
  induction ls with
  | nil => intro s; simp
  | cons s2 ls2 ih =>
    intro s
    rw [List.map_cons, List.map_cons,
      show joinSep ','
          (encStrL s.toList :: encStrL s2.toList :: ls2.map (fun t => encStrL t.toList)) =
        encStrL s.toList ++
          ',' :: joinSep ',' (encStrL s2.toList :: ls2.map (fun t => encStrL t.toList))
        from rfl]
    have h2 := ih s2
    rw [List.map_cons] at h2
    simp only [List.length_append, List.length_cons] at h2 ⊢
    omega

theorem jsonEncode_parse_roundtrip (l : List String) :
    parseJsonStringArr (jsonEncodeStrArr l) = some l := by
  cases l with
  | nil => rfl
  | cons s ls =>
    have hlen := joinSep_enc_length ls s
    have harr : pArrLoop
        (joinSep ',' ((s :: ls).map fun t => encStrL t.toList) ++ [']']) =
        some (s :: ls, []) := by
      rw [pArrLoop]
      exact pArrLoopF_enc ls s _ hlen
    cases ls with
    | nil =>
      rw [jsonEncodeStrArr]
      rw [List.map_cons, List.map_nil] at harr ⊢
      rw [show joinSep ',' [encStrL s.toList] = encStrL s.toList from rfl] at harr ⊢
      rw [encStrL] at harr ⊢
      simp only [List.cons_append, List.append_assoc, List.singleton_append,
        List.nil_append] at harr ⊢
      show (match pArrLoop ('"' :: ((List.map escChar s.toList).flatten ++ ['"', ']'])) with
        | some (l, rest) => if skipWs rest = [] then some l else none
        | none => none) = some [s]
      rw [harr]
      rfl
    | cons s2 ls2 =>
      rw [jsonEncodeStrArr]
      rw [List.map_cons, List.map_cons] at harr ⊢
      rw [show joinSep ','
            (encStrL s.toList :: encStrL s2.toList :: ls2.map (fun t => encStrL t.toList)) =
          encStrL s.toList ++
            ',' :: joinSep ',' (encStrL s2.toList :: ls2.map (fun t => encStrL t.toList))
          from rfl] at harr ⊢
      rw [encStrL] at harr ⊢
      simp only [List.cons_append, List.append_assoc, List.singleton_append,
        List.nil_append] at harr ⊢
      show (match pArrLoop ('"' :: ((List.map escChar s.toList).flatten ++ '"' :: ',' ::
          (joinSep ',' (encStrL s2.toList :: List.map (fun t => encStrL t.toList) ls2) ++
            [']']))) with
        | some (l, rest) => if skipWs rest = [] then some l else none
        | none => none) = some (s :: s2 :: ls2)
      rw [harr]
      rfl

/-! ## Path lists (`config.NormalizeAbsolutePaths`, `config.ParsePathList`,
`config.EncodePathList`) -/

/-- Lexicographic order on code points; identical to Go's byte-wise string
order under UTF-8. -/
def leChars : List Char → List Char → Bool
  | [], _ => true
  | _ :: _, [] => false
  | a :: as, b :: bs =>
    if a.toNat < b.toNat then true
    else if b.toNat < a.toNat then false
    else leChars as bs

/-- String order used by `sort.Strings`. -/
def leStr (a b : String) : Bool := leChars a.toList b.toList

/-- Insert into an ascending list. -/
def insertSorted (x : String) : List String → List String
  | [] => [x]
  | y :: r => if leStr x y then x :: y :: r else y :: insertSorted x r

/-- `sort.Strings` as insertion sort; the inputs here are duplicate-free, so
any sort produces the same ascending list. -/
def sortStrings (l : List String) : List String := l.foldr insertSorted []

/-- The accumulation loop of `NormalizeAbsolutePaths`: keep trimmed absolute
paths, cleaned; the Go code stores them in a map keyed by
`PathKey(clean)`, which on POSIX equals the cleaned path itself (`Clean` is
idempotent), so the map's value set is the set of distinct cleaned paths,
modelled as first-occurrence deduplication. -/
def collectCleanPaths (paths : List String) : List String :=
  paths.foldl
    (fun acc raw =>
      let p := goTrimSpace raw
      if p = "" ∨ goIsAbs p = false then acc
      else
        let c := goClean p
        if c ∈ acc then acc else acc ++ [c])
    []

/-- `config.NormalizeAbsolutePaths` (pathpolicy.go:13-30). -/
def normalizeAbsolutePaths (paths : List String) : List String :=
  sortStrings (collectCleanPaths paths)

/-- The separators of `ParsePathList`'s loose fallback. -/
def isFieldSep (c : Char) : Bool := c = '\n' ∨ c = '\r' ∨ c = ','

/-- Split on a character class, like `splitOnChar` but with a predicate. -/
def splitOnPred (f : Char → Bool) : List Char → List (List Char)
  | [] => [[]]
  | c :: r =>
    if f c then [] :: splitOnPred f r
    else
      match splitOnPred f r with
      | h :: t => (c :: h) :: t
      | [] => [[c]]

/-- `strings.FieldsFunc` over newline/carriage-return/comma: split and drop
empty fields. -/
def goFields (s : String) : List String :=
  ((splitOnPred isFieldSep s.toList).filter (· ≠ [])).map List.asString

/-- `config.ParsePathList` (pathpolicy.go:32-51): empty after trimming is
nil; a bracket-delimited string is tried as a JSON array first; everything
else (including failed JSON) is split loosely. -/
def parsePathList (raw : String) : List String :=
  let r := goTrimSpace raw
  if r = "" then []
  else if goStartsWith r "[" ∧ goEndsWith r "]" then
    match parseJsonStringArr r with
    | some arr => normalizeAbsolutePaths arr
    | none => normalizeAbsolutePaths (goFields r)
  else normalizeAbsolutePaths (goFields r)

/-- `config.EncodePathList` (pathpolicy.go:53-60); `json.Marshal` of a
non-nil `[]string` cannot fail, so the `"[]"` error branch is dead. -/
def encodePathList (paths : List String) : String :=
  jsonEncodeStrArr (normalizeAbsolutePaths paths)

/-! ## Path-list round-trip (C8) -/

theorem splitOnChar_ne_nil (sep : Char) (cs : List Char) : splitOnChar sep cs ≠ [] := by
  cases cs with
  | nil => simp [splitOnChar]
  | cons c r =>
    rw [splitOnChar]
    split
    · simp
    · match h : splitOnChar sep r with
      | h1 :: t => simp
      | [] => simp

theorem splitOnChar_no_sep (sep : Char) (cs : List Char) (h : sep ∉ cs) :
    splitOnChar sep cs = [cs] := by
  induction cs with
  | nil => rfl
  | cons c r ih =>
    rw [splitOnChar, if_neg (by intro he; exact h (he ▸ List.mem_cons_self c r))]
    rw [ih (fun hm => h (List.mem_cons_of_mem c hm))]

theorem splitOnChar_append (sep : Char) (x z : List Char) (h : sep ∉ x) :
    splitOnChar sep (x ++ sep :: z) = x :: splitOnChar sep z := by
  induction x with
  | nil => simp [splitOnChar]
  | cons c r ih =>
    rw [List.cons_append, splitOnChar,
      if_neg (by intro he; exact h (he ▸ List.mem_cons_self c r)),
      ih (fun hm => h (List.mem_cons_of_mem c hm))]

theorem mem_splitOnChar_no_sep (sep : Char) (cs : List Char) :
    ∀ x ∈ splitOnChar sep cs, sep ∉ x := by
  induction cs with
  | nil => intro x hx; simp [splitOnChar] at hx; simp [hx]
  | cons c r ih =>
    intro x hx
    rw [splitOnChar] at hx
    split at hx
    · rcases List.mem_cons.mp hx with rfl | hm
      · simp
      · exact ih x hm
    · rename_i hcs
      match hsp : splitOnChar sep r with
      | h1 :: t =>
        rw [hsp] at hx
        rcases List.mem_cons.mp hx with rfl | hm
        · intro hmem
          rcases List.mem_cons.mp hmem with rfl | hm2
          · exact hcs rfl
          · exact ih h1 (hsp ▸ List.mem_cons_self h1 t) hm2
        · exact ih x (hsp ▸ List.mem_cons_of_mem h1 hm)
      | [] => exact absurd hsp (splitOnChar_ne_nil sep r)

theorem splitOnChar_joinComps : ∀ (l : List (List Char)), l ≠ [] →
    (∀ x ∈ l, '/' ∉ x) → splitOnChar '/' (joinComps l) = l
  | [], h, _ => absurd rfl h
  | [x], _, hs => by
    rw [show joinComps [x] = x from rfl]
    exact splitOnChar_no_sep '/' x (hs x (List.mem_singleton.mpr rfl))
  | x :: y :: t, _, hs => by
    rw [show joinComps (x :: y :: t) = x ++ '/' :: joinComps (y :: t) from rfl,
      splitOnChar_append '/' x _ (hs x (List.mem_cons_self x _)),
      splitOnChar_joinComps (y :: t) (by simp)
        (fun a ha => hs a (List.mem_cons_of_mem x ha))]

/-- Components that can appear in a cleaned rooted path. -/
def goodComp (c : List Char) : Prop :=
  c ≠ [] ∧ c ≠ ['.'] ∧ c ≠ dotdot ∧ '/' ∉ c

theorem cleanStep_fold_good (comps : List (List Char))
    (hc : ∀ c ∈ comps, ¬(c = [] ∨ c = ['.']) ∧ '/' ∉ c) :
    ∀ st, (∀ e ∈ st, goodComp e) →
      ∀ e ∈ comps.foldl (cleanStep true) st, goodComp e := by
  induction comps with
  | nil => intro st hst e he; exact hst e he
  | cons c r ih =>
    intro st hst e he
    rw [List.foldl_cons] at he
    refine ih (fun a ha => hc a (List.mem_cons_of_mem c ha)) (cleanStep true st c) ?_ e he
    intro a ha
    rw [cleanStep.eq_def] at ha
    split at ha
    · match st, hst with
      | [], _ => simp at ha
      | t :: rest, hst =>
        simp only at ha
        split at ha
        · exact hst a (List.mem_cons_of_mem t ha)
        · rw [if_pos trivial] at ha
          exact hst a ha
    · rename_i hcd
      rcases List.mem_cons.mp ha with rfl | hm
      · obtain ⟨h1, h2⟩ := hc a (List.mem_cons_self a r)
        push_neg at h1
        exact ⟨h1.1, h1.2, hcd, h2⟩
      · exact hst a hm

theorem cleanStep_fold_push (comps : List (List Char))
    (hc : ∀ c ∈ comps, c ≠ dotdot) :
    ∀ st, comps.foldl (cleanStep true) st = comps.reverse ++ st := by
  induction comps with
  | nil => intro st; rfl
  | cons c r ih =>
    intro st
    rw [List.foldl_cons, cleanStep.eq_def, if_neg (by
      intro he; exact hc c (List.mem_cons_self c r) he),
      ih (fun a ha => hc a (List.mem_cons_of_mem c ha)) (c :: st)]
    simp

theorem goCleanL_abs_form (cs : List Char) (h : cs.head? = some '/') :
    ∃ l, goCleanL cs = '/' :: joinComps l ∧ ∀ e ∈ l, goodComp e := by
  have hne : cs ≠ [] := by
    intro he; rw [he] at h; simp at h
  refine ⟨((((splitOnChar '/' cs).filter
    (fun c => decide ¬(c = [] ∨ c = ['.']))).foldl (cleanStep true) []).reverse), ?_, ?_⟩
  · rw [goCleanL, if_neg hne]
    simp only [h, decide_True, if_true]
  · intro e he
    rw [List.mem_reverse] at he
    refine cleanStep_fold_good _ ?_ [] (by simp) e he
    intro c hcm
    have h1 := List.of_mem_filter hcm
    have h2 := mem_splitOnChar_no_sep '/' cs c (List.mem_of_mem_filter hcm)
    simp only [decide_eq_true_eq] at h1
    exact ⟨h1, h2⟩

theorem goCleanL_fix (l : List (List Char)) (hl : ∀ e ∈ l, goodComp e) :
    goCleanL ('/' :: joinComps l) = '/' :: joinComps l := by
  cases l with
  | nil => rfl
  | cons x t =>
    have hxne : ∀ e ∈ x :: t, e ≠ [] := fun e he => (hl e he).1
    have hsep : ∀ e ∈ x :: t, '/' ∉ e := fun e he => (hl e he).2.2.2
    rw [goCleanL, if_neg (by simp)]
    simp only [List.head?_cons, decide_True, if_true]
    rw [show splitOnChar '/' ('/' :: joinComps (x :: t)) =
        [] :: splitOnChar '/' (joinComps (x :: t)) from by rw [splitOnChar]; simp,
      splitOnChar_joinComps (x :: t) (by simp) hsep]
    rw [List.filter_cons]
    simp only [show (decide ¬(([] : List Char) = [] ∨ ([] : List Char) = ['.'])) = false
      from by simp]
    rw [if_neg (by simp)]
    rw [List.filter_eq_self.mpr (by
      intro a ha
      simp only [decide_eq_true_eq]
      push_neg
      exact ⟨(hl a ha).1, (hl a ha).2.1⟩)]
    rw [cleanStep_fold_push (x :: t) (fun a ha => (hl a ha).2.2.1) []]
    simp

theorem goIsAbs_iff (s : String) : goIsAbs s = true ↔ s.toList.head? = some '/' := by
  rw [goIsAbs]
  exact decide_eq_true_iff

theorem goClean_idem_abs (p : String) (h : goIsAbs p = true) :
    goClean (goClean p) = goClean p := by
  obtain ⟨l, hform, hgood⟩ := goCleanL_abs_form p.toList ((goIsAbs_iff p).mp h)
  rw [goClean, goClean, hform]
  rw [show (('/' :: joinComps l).asString).toList = '/' :: joinComps l from rfl]
  rw [goCleanL_fix l hgood]

theorem goIsAbs_goClean (p : String) (h : goIsAbs p = true) :
    goIsAbs (goClean p) = true := by
  obtain ⟨l, hform, -⟩ := goCleanL_abs_form p.toList ((goIsAbs_iff p).mp h)
  rw [goClean, hform]
  rw [goIsAbs_iff]
  rfl

theorem goIsAbs_ne_empty (p : String) (h : goIsAbs p = true) : p ≠ "" := by
  intro he
  rw [he] at h
  simp [goIsAbs] at h

theorem collectCleanPaths_props (xs : List String) :
    ∀ x ∈ collectCleanPaths xs, goIsAbs x = true ∧ goClean x = x := by
  rw [collectCleanPaths]
  suffices h : ∀ (acc : List String), (∀ x ∈ acc, goIsAbs x = true ∧ goClean x = x) →
      ∀ x ∈ xs.foldl
        (fun acc raw =>
          let p := goTrimSpace raw
          if p = "" ∨ goIsAbs p = false then acc
          else
            let c := goClean p
            if c ∈ acc then acc else acc ++ [c]) acc,
        goIsAbs x = true ∧ goClean x = x by
    exact h [] (by simp)
  induction xs with
  | nil => intro acc hacc x hx; exact hacc x hx
  | cons raw rest ih =>
    intro acc hacc x hx
    rw [List.foldl_cons] at hx
    refine ih _ ?_ x hx
    intro y hy
    simp only at hy
    split at hy
    · exact hacc y hy
    · rename_i hcond
      push_neg at hcond
      have habs : goIsAbs (goTrimSpace raw) = true := by
        rcases Bool.eq_false_or_eq_true (goIsAbs (goTrimSpace raw)) with ht | hf
        · exact ht
        · exact absurd hf hcond.2
      split at hy
      · exact hacc y hy
      · rcases List.mem_append.mp hy with hm | hm
        · exact hacc y hm
        · rw [List.mem_singleton.mp hm]
          exact ⟨goIsAbs_goClean _ habs, goClean_idem_abs _ habs⟩

theorem collectCleanPaths_nodup (xs : List String) : (collectCleanPaths xs).Nodup := by
  rw [collectCleanPaths]
  suffices h : ∀ (acc : List String), acc.Nodup →
      (xs.foldl
        (fun acc raw =>
          let p := goTrimSpace raw
          if p = "" ∨ goIsAbs p = false then acc
          else
            let c := goClean p
            if c ∈ acc then acc else acc ++ [c]) acc).Nodup by
    exact h [] List.nodup_nil
  induction xs with
  | nil => intro acc hacc; exact hacc
  | cons raw rest ih =>
    intro acc hacc
    rw [List.foldl_cons]
    refine ih _ ?_
    simp only
    split
    · exact hacc
    · split
      · exact hacc
      · rename_i hnm
        exact List.Nodup.append hacc (List.nodup_singleton _)
          (by simp [List.disjoint_singleton]; intro hmem; exact hnm hmem)

theorem collectCleanPaths_id (l : List String)
    (h : ∀ x ∈ l, goTrimSpace x = x ∧ goIsAbs x = true ∧ goClean x = x)
    (hnd : l.Nodup) : collectCleanPaths l = l := by
  rw [collectCleanPaths]
  suffices hgen : ∀ (rest : List String), (∀ x ∈ rest, goTrimSpace x = x ∧
      goIsAbs x = true ∧ goClean x = x) → rest.Nodup →
      ∀ (acc : List String), (∀ x ∈ rest, x ∉ acc) →
      rest.foldl
        (fun acc raw =>
          let p := goTrimSpace raw
          if p = "" ∨ goIsAbs p = false then acc
          else
            let c := goClean p
            if c ∈ acc then acc else acc ++ [c]) acc = acc ++ rest by
    rw [hgen l h hnd [] (by simp)]
    simp
  intro rest
  induction rest with
  | nil => intro _ _ acc _; simp
  | cons x r ih =>
    intro hall hnd2 acc hdisj
    obtain ⟨htrim, habs, hclean⟩ := hall x (List.mem_cons_self x r)
    rw [List.foldl_cons]
    simp only [htrim, hclean]
    rw [if_neg (by
      push_neg
      exact ⟨goIsAbs_ne_empty x habs, by rw [habs]; simp⟩)]
    rw [if_neg (hdisj x (List.mem_cons_self x r))]
    rw [ih (fun y hy => hall y (List.mem_cons_of_mem x hy))
      (List.Nodup.of_cons hnd2) (acc ++ [x]) (by
        intro y hy hmem
        rcases List.mem_append.mp hmem with hm | hm
        · exact hdisj y (List.mem_cons_of_mem x hy) hm
        · rw [List.mem_singleton.mp hm] at hy
          exact (List.nodup_cons.mp hnd2).1 hy)]
    simp

theorem leChars_refl (cs : List Char) : leChars cs cs = true := by
  induction cs with
  | nil => rfl
  | cons c r ih =>
    rw [leChars, if_neg (by omega), if_neg (by omega)]
    exact ih

theorem leChars_total (a b : List Char) : leChars a b = true ∨ leChars b a = true := by
  induction a generalizing b with
  | nil => left; rfl
  | cons x xs ih =>
    cases b with
    | nil => right; rfl
    | cons y ys =>
      by_cases hlt : x.toNat < y.toNat
      · left; rw [leChars, if_pos hlt]
      by_cases hgt : y.toNat < x.toNat
      · right; rw [leChars, if_pos hgt]
      · rcases ih ys with h | h
        · left; rw [leChars, if_neg hlt, if_neg hgt]; exact h
        · right; rw [leChars, if_neg hgt, if_neg hlt]; exact h

theorem leStr_refl (s : String) : leStr s s = true := leChars_refl s.toList

theorem leStr_total (a b : String) : leStr a b = true ∨ leStr b a = true :=
  leChars_total a.toList b.toList

theorem mem_insertSorted (x y : String) (l : List String) :
    y ∈ insertSorted x l ↔ y = x ∨ y ∈ l := by
  induction l with
  | nil => simp [insertSorted]
  | cons z r ih =>
    rw [insertSorted]
    split
    · simp
    · rw [List.mem_cons, ih, List.mem_cons]
      tauto

theorem nodup_insertSorted (x : String) (l : List String) (hx : x ∉ l)
    (hl : l.Nodup) : (insertSorted x l).Nodup := by
  induction l with
  | nil => simp [insertSorted]
  | cons z r ih =>
    rw [insertSorted]
    split
    · exact List.nodup_cons.mpr ⟨by
        intro hm
        rcases List.mem_cons.mp hm with rfl | hm2
        · exact hx (List.mem_cons_self x r)
        · exact hx (by rw [List.mem_cons]; right; exact hm2), hl⟩
    · rw [List.nodup_cons]
      obtain ⟨hzr, hr⟩ := List.nodup_cons.mp hl
      refine ⟨?_, ih (fun hm => hx (List.mem_cons_of_mem z hm)) hr⟩
      intro hm
      rcases (mem_insertSorted x z r).mp hm with rfl | hm2
      · exact hx (List.mem_cons_self z r)
      · exact hzr hm2

/-- Ascending-chain check for the sort order. -/
def chainLe : List String → Bool
  | [] => true
  | [_] => true
  | a :: b :: r => leStr a b && chainLe (b :: r)

theorem chainLe_insertSorted (x : String) (l : List String) (hl : chainLe l = true) :
    chainLe (insertSorted x l) = true := by
  induction l with
  | nil => rfl
  | cons z r ih =>
    rw [insertSorted]
    split
    · rename_i hle
      rw [chainLe, Bool.and_eq_true]
      exact ⟨hle, hl⟩
    · rename_i hnle
      have hzx : leStr z x = true := by
        rcases leStr_total x z with h | h
        · exact absurd h hnle
        · exact h
      cases r with
      | nil =>
        rw [show insertSorted x [] = [x] from rfl, chainLe, Bool.and_eq_true]
        exact ⟨hzx, rfl⟩
      | cons w r2 =>
        rw [chainLe, Bool.and_eq_true] at hl
        have htail := ih hl.2
        rw [insertSorted]
        split
        · rename_i hxw
          rw [chainLe, Bool.and_eq_true]
          refine ⟨hzx, ?_⟩
          rw [show insertSorted x (w :: r2) = x :: w :: r2 from by
            rw [insertSorted, if_pos hxw]] at htail
          exact htail
        · rename_i hnxw
          rw [chainLe, Bool.and_eq_true]
          refine ⟨hl.1, ?_⟩
          rw [show insertSorted x (w :: r2) = w :: insertSorted x r2 from by
            rw [insertSorted, if_neg hnxw]] at htail
          exact htail

theorem chainLe_sortStrings (l : List String) : chainLe (sortStrings l) = true := by
  induction l with
  | nil => rfl
  | cons x r ih =>
    rw [sortStrings, List.foldr_cons]
    exact chainLe_insertSorted x _ ih

theorem mem_sortStrings (l : List String) (y : String) :
    y ∈ sortStrings l ↔ y ∈ l := by
  induction l with
  | nil => simp [sortStrings]
  | cons x r ih =>
    rw [sortStrings, List.foldr_cons, mem_insertSorted]
    rw [sortStrings] at ih
    rw [ih, List.mem_cons]

theorem nodup_sortStrings (l : List String) (hl : l.Nodup) :
    (sortStrings l).Nodup := by
  induction l with
  | nil => simp [sortStrings]
  | cons x r ih =>
    obtain ⟨hxr, hr⟩ := List.nodup_cons.mp hl
    rw [sortStrings, List.foldr_cons]
    refine nodup_insertSorted x _ ?_ (ih hr)
    rw [show List.foldr insertSorted [] r = sortStrings r from rfl, mem_sortStrings]
    exact hxr

theorem sortStrings_of_chainLe (l : List String) (hl : chainLe l = true) :
    sortStrings l = l := by
  induction l with
  | nil => rfl
  | cons a r ih =>
    have hr : chainLe r = true := by
      match r, hl with
      | [], _ => rfl
      | b :: r2, hl =>
        rw [chainLe, Bool.and_eq_true] at hl
        exact hl.2
    rw [sortStrings, List.foldr_cons,
      show List.foldr insertSorted [] r = sortStrings r from rfl, ih hr]
    match r, hl with
    | [], _ => rfl
    | b :: r2, hl =>
      rw [chainLe, Bool.and_eq_true] at hl
      rw [insertSorted, if_pos hl.1]

theorem normalizeAbsolutePaths_idem (xs : List String)
    (h : ∀ p ∈ normalizeAbsolutePaths xs, goTrimSpace p = p) :
    normalizeAbsolutePaths (normalizeAbsolutePaths xs) = normalizeAbsolutePaths xs := by
  have hmem : ∀ p ∈ normalizeAbsolutePaths xs, goIsAbs p = true ∧ goClean p = p := by
    intro p hp
    rw [normalizeAbsolutePaths, mem_sortStrings] at hp
    exact collectCleanPaths_props xs p hp
  have hnd : (normalizeAbsolutePaths xs).Nodup :=
    nodup_sortStrings _ (collectCleanPaths_nodup xs)
  rw [show normalizeAbsolutePaths (normalizeAbsolutePaths xs) =
      sortStrings (collectCleanPaths (normalizeAbsolutePaths xs)) from rfl]
  rw [collectCleanPaths_id _ (fun x hx =>
    ⟨h x hx, (hmem x hx).1, (hmem x hx).2⟩) hnd]
  rw [show normalizeAbsolutePaths xs = sortStrings (collectCleanPaths xs) from rfl]
  exact sortStrings_of_chainLe _ (chainLe_sortStrings _)

theorem dropSpaceL_cons_not_space (c : Char) (r : List Char) (h : isGoSpace c = false) :
    dropSpaceL (c :: r) = c :: r := by
  rw [dropSpaceL]
  simp [h]

theorem goTrimSpace_jsonEnc (l : List String) :
    goTrimSpace (jsonEncodeStrArr l) = jsonEncodeStrArr l := by
  rw [show jsonEncodeStrArr l =
    ('[' :: (joinSep ',' (l.map fun s => encStrL s.toList) ++ [']'])).asString from rfl]
  rw [goTrimSpace]
  rw [show (('[' :: (joinSep ',' (l.map fun s => encStrL s.toList) ++ [']'])).asString).toList
    = '[' :: (joinSep ',' (l.map fun s => encStrL s.toList) ++ [']']) from rfl]
  rw [goTrimSpaceL]
  rw [dropSpaceL_cons_not_space '[' _ (by decide)]
  simp only [List.reverse_cons, List.reverse_append, List.reverse_cons, List.reverse_nil,
    List.nil_append, List.cons_append, List.singleton_append]
  rw [dropSpaceL_cons_not_space ']' _ (by decide)]
  simp

theorem jsonEnc_ne_empty (l : List String) : jsonEncodeStrArr l ≠ "" := by
  intro he
  have h2 := congrArg String.toList he
  rw [show (jsonEncodeStrArr l).toList
    = '[' :: (joinSep ',' (l.map fun s => encStrL s.toList) ++ [']']) from rfl] at h2
  simp at h2

theorem jsonEnc_startsWith (l : List String) :
    goStartsWith (jsonEncodeStrArr l) "[" = true := by
  rw [goStartsWith,
    show (jsonEncodeStrArr l).toList
      = '[' :: (joinSep ',' (l.map fun s => encStrL s.toList) ++ [']']) from rfl]
  rw [show ("[" : String).toList = ['['] from rfl, isPre]
  simp [isPre]

theorem jsonEnc_endsWith (l : List String) :
    goEndsWith (jsonEncodeStrArr l) "]" = true := by
  rw [goEndsWith,
    show (jsonEncodeStrArr l).toList
      = '[' :: (joinSep ',' (l.map fun s => encStrL s.toList) ++ [']']) from rfl]
  rw [show ("]" : String).toList = [']'] from rfl]
  simp only [List.reverse_cons, List.reverse_append, List.reverse_nil, List.nil_append,
    List.cons_append, List.singleton_append]
  simp [isPre]

theorem parsePathList_jsonEnc (l : List String) :
    parsePathList (jsonEncodeStrArr l) = normalizeAbsolutePaths l := by
  rw [parsePathList]
  simp only [goTrimSpace_jsonEnc]
  rw [if_neg (jsonEnc_ne_empty l)]
  rw [if_pos (show goStartsWith (jsonEncodeStrArr l) "[" = true
      ∧ goEndsWith (jsonEncodeStrArr l) "]" = true
    from ⟨jsonEnc_startsWith l, jsonEnc_endsWith l⟩)]
  rw [jsonEncode_parse_roundtrip l]

/-- C8, counterexample: the round-trip `encode_list(parse_list(encode_list(xs)))
= encode_list(xs)` fails at `xs = ["/a /"]`: `Clean("/a /") = "/a "` keeps the
trailing space inside the path element, and the re-parse trims it away. -/
theorem c8_encode_parse_encode_counterexample :
    encodePathList (parsePathList (encodePathList ["/a /"])) ≠ encodePathList ["/a /"] := by
  decide

/-- C8, amended: `encode_list(parse_list(encode_list(xs))) = encode_list(xs)`
for every `xs` whose normalized paths are unchanged by whitespace trimming
(no leading or trailing `TrimSpace` whitespace survives cleaning).  The
counterexample shows the restriction is needed: a cleaned path may end in a
space, which the re-parse trims. -/
theorem c8_encode_parse_encode_amended (xs : List String)
    (h : ∀ p ∈ normalizeAbsolutePaths xs, goTrimSpace p = p) :
    encodePathList (parsePathList (encodePathList xs)) = encodePathList xs := by
  have hidem := normalizeAbsolutePaths_idem xs h
  conv_lhs =>
    rw [show encodePathList xs = jsonEncodeStrArr (normalizeAbsolutePaths xs) from rfl,
      parsePathList_jsonEnc]
  rw [hidem]
  rw [show encodePathList (normalizeAbsolutePaths xs) =
    jsonEncodeStrArr (normalizeAbsolutePaths (normalizeAbsolutePaths xs)) from rfl, hidem]
  rfl

/-- C8 witness: the amended round-trip at the concrete list `["/b", "/a"]`. -/
theorem c8_witness_check :
    (∀ p ∈ normalizeAbsolutePaths ["/b", "/a"], goTrimSpace p = p) ∧
    encodePathList (parsePathList (encodePathList ["/b", "/a"])) = encodePathList ["/b", "/a"] :=
  ⟨by decide, c8_encode_parse_encode_amended ["/b", "/a"] (by decide)⟩

/-! ## RFC 3339 timestamps (`time.Time.Format(time.RFC3339)` and
`time.Parse(time.RFC3339, ·)` as used by the capture-time pipeline) -/

/-- A Go `time.Time` instant, already in UTC, at second precision (the
precision of `time.RFC3339` formatting; `.UTC()` is applied before every
`Format` call in the embedded code). -/
structure GoTime where
  year : Nat
  month : Nat
  day : Nat
  hour : Nat
  minute : Nat
  second : Nat
deriving DecidableEq, Repr

/-- Gregorian leap year. -/
def isLeapYear (y : Nat) : Bool := y % 4 = 0 ∧ (y % 100 ≠ 0 ∨ y % 400 = 0)

/-- Days in a month. -/
def daysInMonth (y m : Nat) : Nat :=
  if m = 2 then (if isLeapYear y then 29 else 28)
  else if m = 4 ∨ m = 6 ∨ m = 9 ∨ m = 11 then 30
  else 31

/-- A calendar-valid UTC instant representable by the four-digit-year
RFC 3339 format — every real `time.Time` in range satisfies this. -/
def GoTime.Valid (t : GoTime) : Prop :=
  t.year ≤ 9999 ∧ 1 ≤ t.month ∧ t.month ≤ 12 ∧ 1 ≤ t.day ∧
    t.day ≤ daysInMonth t.year t.month ∧ t.hour ≤ 23 ∧ t.minute ≤ 59 ∧ t.second ≤ 59

instance (t : GoTime) : Decidable t.Valid := by
  rw [GoTime.Valid]; infer_instance

/-- Decimal digit character. -/
def decDigitChar (n : Nat) : Char := Char.ofNat (48 + n)

/-- Two-digit zero-padded field (`%02d`; fields are < 100 for valid times). -/
def pad2L (n : Nat) : List Char := [decDigitChar (n / 10 % 10), decDigitChar (n % 10)]

/-- Four-digit zero-padded year. -/
def pad4L (n : Nat) : List Char :=
  [decDigitChar (n / 1000 % 10), decDigitChar (n / 100 % 10),
    decDigitChar (n / 10 % 10), decDigitChar (n % 10)]

/-- `t.Format(time.RFC3339)` for a UTC time at second precision. -/
def formatRFC3339 (t : GoTime) : String :=
  (pad4L t.year ++ '-' :: pad2L t.month ++ '-' :: pad2L t.day ++ 'T' :: pad2L t.hour ++
    ':' :: pad2L t.minute ++ ':' :: pad2L t.second ++ ['Z']).asString

/-- Decimal digit value. -/
def digVal (c : Char) : Option Nat :=
  if '0' ≤ c ∧ c ≤ '9' then some (c.toNat - 48) else none

/-- Read exactly two digits. -/
def read2 : List Char → Option (Nat × List Char)
  | a :: b :: r =>
    match digVal a, digVal b with
    | some x, some y => some (x * 10 + y, r)
    | _, _ => none
  | _ => none

/-- Read exactly four digits. -/
def read4 : List Char → Option (Nat × List Char)
  | a :: b :: c :: d :: r =>
    match digVal a, digVal b, digVal c, digVal d with
    | some x, some y, some z, some w => some (((x * 10 + y) * 10 + z) * 10 + w, r)
    | _, _, _, _ => none
  | _ => none

/-- Drop a run of digits. -/
def dropDigits : List Char → List Char
  | [] => []
  | c :: r => if (digVal c).isSome then dropDigits r else c :: r

/-- `time.Parse(time.RFC3339, s)` restricted to the `Z`-suffixed UTC form,
the only form this pipeline ever re-parses (every parsed string was produced
by `formatRFC3339`).  An optional fractional second is accepted and
discarded, as Go accepts it and second-precision formatting drops it; the
calendar checks (month, per-month day, clock ranges) mirror Go's. -/
def parseRFC3339 (s : String) : Option GoTime :=
  match read4 s.toList with
  | some (y, '-' :: r1) =>
    match read2 r1 with
    | some (mo, '-' :: r2) =>
      match read2 r2 with
      | some (d, 'T' :: r3) =>
        match read2 r3 with
        | some (h, ':' :: r4) =>
          match read2 r4 with
          | some (mi, ':' :: r5) =>
            match read2 r5 with
            | some (sec, r6) =>
              let r7 := match r6 with
                | '.' :: c :: r => if (digVal c).isSome then dropDigits r else '.' :: c :: r
                | _ => r6
              match r7 with
              | ['Z'] =>
                if 1 ≤ mo ∧ mo ≤ 12 ∧ 1 ≤ d ∧ d ≤ daysInMonth y mo ∧
                    h ≤ 23 ∧ mi ≤ 59 ∧ sec ≤ 59 then
                  some ⟨y, mo, d, h, mi, sec⟩
                else none
              | _ => none
            | _ => none
          | _ => none
        | _ => none
      | _ => none
    | _ => none
  | _ => none

/-- `ingest.normalizeCaptureTime` (ingest.go:550-557): re-format a parseable
raw value, otherwise format the fallback (the source file's mtime). -/
def normalizeCaptureTime (raw : String) (fallback : GoTime) : String :=
  if raw ≠ "" then
    match parseRFC3339 raw with
    | some t => formatRFC3339 t
    | none => formatRFC3339 fallback
  else formatRFC3339 fallback

/-- The inputs that determine `media.ExtractMetadata`'s capture time: the
parsed EXIF datetime when the file is an image and EXIF decoding found one,
the extractor's own `os.Stat` mtime, and the current time. -/
structure MetaTimeEnv where
  exifTime : Option GoTime
  statMTime : Option GoTime
  now : GoTime

/-- The capture-time portion of `media.ExtractMetadata`
(geocode.go `ExtractMetadata`, lines 301-345): EXIF datetime for images,
else the extractor's stat mtime, else `time.Now()`. -/
def extractCaptureTime (kind : String) (env : MetaTimeEnv) : String :=
  let c := if kind = "image" then
      match env.exifTime with
      | some t => formatRFC3339 t
      | none => ""
    else ""
  let c := if c = "" then
      match env.statMTime with
      | some t => formatRFC3339 t
      | none => c
    else c
  if c = "" then formatRFC3339 env.now else c

/-- The fallback chain's chosen instant. -/
def captureChain (kind : String) (env : MetaTimeEnv) : GoTime :=
  match (if kind = "image" then env.exifTime else none) with
  | some t => t
  | none =>
    match env.statMTime with
    | some t => t
    | none => env.now

/-! ## RFC 3339 round-trip and capture-time resolution facts -/

theorem digVal_decDigitChar : ∀ k, k < 10 → digVal (decDigitChar k) = some k := by decide

theorem read2_pad2 (n : Nat) (h : n ≤ 99) (rest : List Char) :
    read2 (pad2L n ++ rest) = some (n, rest) := by
  show read2 (decDigitChar (n / 10 % 10) :: decDigitChar (n % 10) :: rest) = some (n, rest)
  rw [read2, digVal_decDigitChar _ (by omega), digVal_decDigitChar _ (by omega)]
  simp only [Option.some.injEq, Prod.mk.injEq]
  constructor
  · omega
  · trivial

theorem read4_pad4 (n : Nat) (h : n ≤ 9999) (rest : List Char) :
    read4 (pad4L n ++ rest) = some (n, rest) := by
  show read4 (decDigitChar (n / 1000 % 10) :: decDigitChar (n / 100 % 10) ::
    decDigitChar (n / 10 % 10) :: decDigitChar (n % 10) :: rest) = some (n, rest)
  rw [read4, digVal_decDigitChar _ (by omega), digVal_decDigitChar _ (by omega),
    digVal_decDigitChar _ (by omega), digVal_decDigitChar _ (by omega)]
  simp only [Option.some.injEq, Prod.mk.injEq]
  constructor
  · omega
  · trivial

theorem parse_formatRFC3339 (t : GoTime) (h : t.Valid) :
    parseRFC3339 (formatRFC3339 t) = some t := by
  obtain ⟨hy, hm1, hm2, hd1, hd2, hh, hmi, hs⟩ := h
  have hdm : t.day ≤ 31 := by
    have : daysInMonth t.year t.month ≤ 31 := by
      rw [daysInMonth]
      split
      · split <;> omega
      · split <;> omega
    omega
  have hlist : (formatRFC3339 t).toList = pad4L t.year ++ '-' :: (pad2L t.month ++ '-' ::
      (pad2L t.day ++ 'T' :: (pad2L t.hour ++ ':' :: (pad2L t.minute ++ ':' ::
      (pad2L t.second ++ ['Z']))))) := by
    rw [formatRFC3339]
    simp only [List.append_assoc, List.cons_append]
    rfl
  simp only [parseRFC3339, hlist, read4_pad4 t.year hy, read2_pad2 t.month (by omega),
    read2_pad2 t.day (by omega), read2_pad2 t.hour (by omega),
    read2_pad2 t.minute (by omega), read2_pad2 t.second (by omega)]
  show (if 1 ≤ t.month ∧ t.month ≤ 12 ∧ 1 ≤ t.day ∧ t.day ≤ daysInMonth t.year t.month ∧
      t.hour ≤ 23 ∧ t.minute ≤ 59 ∧ t.second ≤ 59 then
      some (⟨t.year, t.month, t.day, t.hour, t.minute, t.second⟩ : GoTime) else none) = some t
  rw [if_pos ⟨hm1, hm2, hd1, hd2, hh, hmi, hs⟩]

theorem formatRFC3339_ne_empty (t : GoTime) : formatRFC3339 t ≠ "" := by
  intro he
  have h2 : (formatRFC3339 t).toList = [] := by rw [he]; rfl
  rw [formatRFC3339,
    show ∀ l : List Char, (List.asString l).toList = l from fun _ => rfl] at h2
  simp [pad4L] at h2

theorem captureChain_valid (kind : String) (env : MetaTimeEnv)
    (hex : ∀ t, env.exifTime = some t → t.Valid)
    (hst : ∀ t, env.statMTime = some t → t.Valid)
    (hnow : env.now.Valid) : (captureChain kind env).Valid := by
  rw [captureChain]
  by_cases hk : kind = "image"
  · rw [if_pos hk]
    cases hexi : env.exifTime with
    | some t => exact hex t hexi
    | none =>
      cases hsti : env.statMTime with
      | some t2 => exact hst t2 hsti
      | none => exact hnow
  · rw [if_neg hk]
    cases hsti : env.statMTime with
    | some t2 => exact hst t2 hsti
    | none => exact hnow

theorem extractCaptureTime_eq (kind : String) (env : MetaTimeEnv) :
    extractCaptureTime kind env = formatRFC3339 (captureChain kind env) := by
  rw [extractCaptureTime, captureChain]
  by_cases hk : kind = "image"
  · rw [if_pos hk, if_pos hk]
    cases hexi : env.exifTime with
    | some t => simp [formatRFC3339_ne_empty t]
    | none =>
      cases hsti : env.statMTime with
      | some t2 => simp [formatRFC3339_ne_empty t2]
      | none => simp
  · rw [if_neg hk, if_neg hk]
    cases hsti : env.statMTime with
    | some t2 => simp [formatRFC3339_ne_empty t2]
    | none => simp

theorem captureTime_resolved (kind : String) (env : MetaTimeEnv) (fb : GoTime)
    (hex : ∀ t, env.exifTime = some t → t.Valid)
    (hst : ∀ t, env.statMTime = some t → t.Valid)
    (hnow : env.now.Valid) :
    normalizeCaptureTime (extractCaptureTime kind env) fb =
      formatRFC3339 (captureChain kind env)
    ∧ normalizeCaptureTime (extractCaptureTime kind env) fb ≠ ""
    ∧ parseRFC3339 (normalizeCaptureTime (extractCaptureTime kind env) fb) =
        some (captureChain kind env) := by
  have hvalid := captureChain_valid kind env hex hst hnow
  have heq : normalizeCaptureTime (extractCaptureTime kind env) fb =
      formatRFC3339 (captureChain kind env) := by
    rw [extractCaptureTime_eq, normalizeCaptureTime,
      if_pos (formatRFC3339_ne_empty _), parse_formatRFC3339 _ hvalid]
  refine ⟨heq, ?_, ?_⟩
  · rw [heq]; exact formatRFC3339_ne_empty _
  · rw [heq]; exact parse_formatRFC3339 _ hvalid

/-! ## Supported media classification (`config.IsSupportedMedia`) -/

/-- `config.SupportedImageExtensions`. -/
def supportedImageExts : List String :=
  [".jpg", ".jpeg", ".jpe", ".png", ".tif", ".tiff", ".bmp", ".webp", ".gif",
   ".heic", ".heif", ".dng", ".arw", ".cr2", ".cr3", ".nef", ".orf", ".raf",
   ".rw2", ".srw", ".x3f", ".3fr", ".iiq", ".pef", ".hdr", ".exr", ".jp2"]

/-- `config.SupportedVideoExtensions`. -/
def supportedVideoExts : List String :=
  [".mp4", ".mov", ".m4v", ".ts", ".m2ts", ".mts", ".mpeg", ".mpg", ".avi",
   ".mkv", ".mxf", ".wmv", ".webm", ".lrv", ".insv", ".flv", ".3gp"]

/-- Scan a reversed path for the final element's last dot. -/
def extScan : List Char → List Char → List Char
  | [], _ => []
  | c :: r, acc =>
    if c = '/' then []
    else if c = '.' then '.' :: acc
    else extScan r (c :: acc)

/-- `filepath.Ext`: the suffix from the final dot of the last element. -/
def goExt (s : String) : String := (extScan s.toList.reverse []).asString

/-- `config.IsSupportedMedia` (config.go:28-37): classify by lowercased
extension; `some "image"`/`some "video"` mirror `(kind, true)` and `none`
mirrors `("", false)`. -/
def isSupportedMedia (path : String) : Option String :=
  let ext := goToLower (goExt path)
  if supportedImageExts.contains ext then some "image"
  else if supportedVideoExts.contains ext then some "video"
  else none

/-! ## Ingest model: filesystem, catalog and per-file processing

Filesystem and database effects are explicit state; steps whose outcome the
code merely branches on (stat, hashing, EXIF extraction, destination
allocation, the SQL insert result) are oracle fields, one per file.
Reverse geocoding only fills location columns of the record (ingest.go
493-505) and its failure is ignored, so it does not appear in the state. -/

/-- `ingest.Result` (ingest.go:52-57). -/
structure Result where
  scanned : Nat
  copied : Nat
  duplicates : Nat
  errors : Nat
deriving DecidableEq, Repr

/-- The all-zero result. -/
def zeroResult : Result := ⟨0, 0, 0, 0⟩

/-- `ingest.Status` (ingest.go:59-78), without the wall-clock fields
(`StartedAt`/`UpdatedAt`) and the reader-derived rates
(`Percent`/`FilesPerSec`/`MBps`), which no claim mentions. -/
structure StatusM where
  state : String
  mount : String
  phase : String
  message : String
  currentPath : String
  totalFiles : Nat
  totalBytes : Int
  processedFiles : Nat
  copiedFiles : Nat
  duplicates : Nat
  errors : Nat
  lastResult : Result
deriving DecidableEq, Repr

/-- `os.FileInfo` as used by `ingestFile`: size and mtime. -/
structure GoFileInfo where
  size : Int
  modTime : GoTime
deriving Repr

/-- One `media_files` row, restricted to the columns the claims mention. -/
structure MediaRow where
  crc32 : String
  sha256 : String
  sizeBytes : Int
  captureTime : String
  destPath : String
deriving DecidableEq, Repr

/-- `db.Store.MediaExists` (store.go:465-478): the dedup probe on
`(crc32, size_bytes, capture_time)`. -/
def mediaExists (catalog : List MediaRow) (crc : String) (size : Int)
    (capture : String) : Bool :=
  catalog.any fun r => r.crc32 == crc && r.sizeBytes == size && r.captureTime == capture

/-- Mutable state: the library filesystem as the list of existing paths,
the catalog and audit tables, and the published status. -/
structure World where
  fs : List String
  catalog : List MediaRow
  audit : List AuditEntry
  status : StatusM
deriving Repr

/-- Append one audit row through the hash-chained logger (the details map
is abstracted to its primary payload string). -/
def auditLog (sha : String → String) (ts actor action detailsJson : String)
    (w : World) : World :=
  {w with audit := logStep sha w.audit ts actor action detailsJson}

/-- Outcome of `os.Rename`. -/
inductive RenameRes
  | ok
  | errExdev
  | errOther
deriving DecidableEq, Repr

/-- Outcomes of `copyFileAtomic`'s system calls, fixed by the environment. -/
structure CopyEnv where
  openSrcOk : Bool
  createOk : Bool
  writeOk : Bool
  renameRes : RenameRes
deriving DecidableEq, Repr

/-- `ingest.copyFileAtomic` (ingest.go:667-710): open the source, create
`<dst>.part` with `O_CREATE|O_EXCL` (which also fails when the `.part`
already exists), write with a 1 MiB buffer, fsync, rename into place; on
any error remove the `.part` and fail.  Every rename failure — EXDEV
included — takes the same removal path; there is no fallback.  `Chtimes`
and `Chmod` only touch metadata and are outside the modelled state. -/
def copyFileAtomic (env : CopyEnv) (fs : List String) (_srcPath dstPath : String) :
    List String × Bool :=
  let tmpPath := dstPath ++ ".part"
  if env.openSrcOk = false then (fs, false)
  else if tmpPath ∈ fs ∨ env.createOk = false then (fs, false)
  else
    let fs1 := tmpPath :: fs
    if env.writeOk = false then (fs1.erase tmpPath, false)
    else
      match env.renameRes with
      | .ok => (dstPath :: fs1.erase tmpPath, true)
      | _ => (fs1.erase tmpPath, false)

/-- `db.Store.InsertMedia`'s outcome as the caller observes it
(ingest.go:523-530): success, an error whose message contains `"unique"`
(a constraint violation, possibly from a concurrent ingest), or any other
error. -/
inductive InsertRes
  | ok
  | errUnique
  | errOther
deriving DecidableEq, Repr

/-- Environment of one `ingestFile` call. -/
structure FileEnv where
  stat : Option GoFileInfo
  hashes : Option (String × String)
  meta : Option String
  destPath : Option String
  copyEnv : CopyEnv
  insertRes : InsertRes

/-- `ingest.Manager.ingestFile` (ingest.go:435-540): stat, skip empty
files, hash, extract metadata, resolve capture time, probe for duplicates,
allocate a destination, copy atomically, insert the row (deleting the file
again on insert failure, and counting a unique violation as a duplicate),
and write the audit entries.  Returns the world, the result and whether an
error was returned to the caller. -/
def ingestFile (sha : String → String) (ts : String) (env : FileEnv)
    (actor srcPath : String) (w : World) (res : Result) :
    World × Result × Bool :=
  match env.stat with
  | none => (w, res, true)
  | some info =>
    if info.size = 0 then (w, res, false)
    else
      match env.hashes with
      | none => (w, res, true)
      | some (crcHex, shaHex) =>
        match env.meta with
        | none => (w, res, true)
        | some metaCapture =>
          let capture := normalizeCaptureTime metaCapture info.modTime
          if mediaExists w.catalog crcHex info.size capture then
            (auditLog sha ts actor "duplicate_skipped" srcPath w,
              {res with duplicates := res.duplicates + 1}, false)
          else
            match env.destPath with
            | none => (w, res, true)
            | some destPath =>
              let copyOut := copyFileAtomic env.copyEnv w.fs srcPath destPath
              if copyOut.2 = false then ({w with fs := copyOut.1}, res, true)
              else
                let w1 := {w with fs := copyOut.1}
                match env.insertRes with
                | .ok =>
                  let row : MediaRow := ⟨crcHex, shaHex, info.size, capture, destPath⟩
                  let w2 := {w1 with catalog := w1.catalog ++ [row]}
                  (auditLog sha ts actor "file_ingested" srcPath w2,
                    {res with copied := res.copied + 1}, false)
                | .errUnique =>
                  ({w1 with fs := w1.fs.erase destPath},
                    {res with duplicates := res.duplicates + 1}, false)
                | .errOther =>
                  ({w1 with fs := w1.fs.erase destPath}, res, true)

/-! ## Directory walk (`filepath.WalkDir`) and `ProcessMount` -/

/-- `fs.DirEntry`: name and kind. -/
structure DirEnt where
  name : String
  isDir : Bool
deriving DecidableEq, Repr

/-- A directory tree.  `readable = false` makes `os.ReadDir` fail on that
directory (returning no entries), which triggers `WalkDir`'s second
callback call with a non-nil error. -/
inductive FsTree
  | file (name : String)
  | dir (name : String) (readable : Bool) (children : List FsTree)
deriving Repr

/-- The entry a tree node presents to the walk callback. -/
def FsTree.ent : FsTree → DirEnt
  | .file n => ⟨n, false⟩
  | .dir n _ _ => ⟨n, true⟩

/-- The two error values a walk callback can produce here: `fs.SkipDir` or
an ordinary error. -/
inductive WalkErr
  | skipDir
  | fail
deriving DecidableEq, Repr

/-- `filepath.Join` of a non-empty prefix with an entry name. -/
def goJoin (a b : String) : String := goClean (a ++ "/" ++ b)

mutual
/-- `filepath.walkDir` / its child loop (path/path.go in the Go standard
library): call the callback, descend into readable directories, report a
`ReadDir` failure through a second callback call, convert `SkipDir` as the
real code does.  The callback's last argument tells whether it is invoked
with a non-nil `walkErr`. -/
def walkNode {σ : Type} (fn : σ → String → DirEnt → Bool → σ × Option WalkErr)
    (s : σ) (path : String) (t : FsTree) : σ × Option WalkErr :=
  let d := t.ent
  let out1 := fn s path d false
  match out1.2 with
  | some e => if e = .skipDir ∧ d.isDir then (out1.1, none) else (out1.1, some e)
  | none =>
    match t with
    | .file _ => (out1.1, none)
    | .dir _ readable children =>
      if readable then walkChildren fn out1.1 path children
      else
        let out2 := fn out1.1 path d true
        match out2.2 with
        | some e => if e = .skipDir then (out2.1, none) else (out2.1, some e)
        | none => walkChildren fn out2.1 path []

def walkChildren {σ : Type} (fn : σ → String → DirEnt → Bool → σ × Option WalkErr)
    (s : σ) (path : String) : List FsTree → σ × Option WalkErr
  | [] => (s, none)
  | c :: cs =>
    let out := walkNode fn s (goJoin path c.ent.name) c
    match out.2 with
    | some .skipDir => (out.1, none)
    | some .fail => (out.1, some .fail)
    | none => walkChildren fn out.1 path cs
end

/-- `filepath.WalkDir` on an existing root: walk, then turn a top-level
`SkipDir` into success. -/
def goWalkDir {σ : Type} (fn : σ → String → DirEnt → Bool → σ × Option WalkErr)
    (s : σ) (root : String) (t : FsTree) : σ × Option WalkErr :=
  let out := walkNode fn s root t
  match out.2 with
  | some .skipDir => (out.1, none)
  | e => (out.1, e)

/-- State of the first (scan) pass. -/
structure ScanSt where
  w : World
  res : Result
  totalFiles : Nat
  totalBytes : Int

/-- The scan-pass callback (ingest.go:205-236): swallow walk errors while
counting them, prune hidden directories, count supported files and bytes,
and publish totals every 50 files. -/
def scanCb (fe : String → FileEnv) (st : ScanSt) (path : String) (d : DirEnt)
    (walkErr : Bool) : ScanSt × Option WalkErr :=
  if walkErr then ({st with res := {st.res with errors := st.res.errors + 1}}, none)
  else if d.isDir then
    if goStartsWith d.name "." then (st, some .skipDir) else (st, none)
  else
    match isSupportedMedia path with
    | none => (st, none)
    | some _ =>
      let tf := st.totalFiles + 1
      let tb := st.totalBytes + (match (fe path).stat with
        | some i => i.size
        | none => 0)
      let st1 : ScanSt := {st with
        res := {st.res with scanned := st.res.scanned + 1}
        totalFiles := tf
        totalBytes := tb}
      if tf % 50 = 0 then
        ({st1 with w := {st1.w with status :=
          {st1.w.status with totalFiles := tf, totalBytes := tb}}}, none)
      else (st1, none)

/-- State of the second (ingest) pass. -/
structure IngestSt where
  w : World
  res : Result

/-- The ingest-pass callback (ingest.go:257-294): swallow walk errors while
counting them, prune hidden directories, publish the current path, run
`ingestFile`, count a per-file error without aborting, and publish
progress.  It never returns a non-nil error for a file. -/
def ingestCb (sha : String → String) (ts : String) (fe : String → FileEnv)
    (actor : String) (st : IngestSt) (path : String) (d : DirEnt)
    (walkErr : Bool) : IngestSt × Option WalkErr :=
  if walkErr then ({st with res := {st.res with errors := st.res.errors + 1}}, none)
  else if d.isDir then
    if goStartsWith d.name "." then (st, some .skipDir) else (st, none)
  else
    match isSupportedMedia path with
    | none => (st, none)
    | some _ =>
      let w0 := {st.w with status := {st.w.status with currentPath := path}}
      let out := ingestFile sha ts (fe path) actor path w0 st.res
      let res1 := if out.2.2 then {out.2.1 with errors := out.2.1.errors + 1}
        else out.2.1
      let w1 := {out.1 with status := {out.1.status with
        processedFiles := out.1.status.processedFiles + 1,
        copiedFiles := res1.copied, duplicates := res1.duplicates,
        errors := res1.errors}}
      (⟨w1, res1⟩, none)

/-- Environment of one `ProcessMount` call: setting reads, directory
creation, the mount's tree and the per-file oracles. -/
structure PMEnv where
  sha : String → String
  ts : String
  baseSetting : Option String
  mkdirOk : Bool
  excludedRaw : String
  layoutSetting : Option String
  tree : FsTree
  fileEnv : String → FileEnv

/-- `ingest.Manager.ProcessMount` (ingest.go:152-324): clean the mount
path, refuse when base storage is unset/blank or the mount is excluded,
publish `scanning`, run the scan pass, publish `ingesting`, run the ingest
pass, then write `ingest_completed` and return to an `idle` status carrying
the result.  The `scanErr`/`walkErr` error branches are kept verbatim,
reachable only if a walk returned a non-nil error.  Returns the world, the
result and whether an error was returned. -/
def processMount (env : PMEnv) (w : World) (mountPath actor : String) :
    World × Result × Bool :=
  let mount := goClean mountPath
  match env.baseSetting with
  | none =>
    (auditLog env.sha env.ts actor "ingest_skipped_no_storage" mount w, zeroResult, false)
  | some baseRaw =>
    if goTrimSpace baseRaw = "" then
      (auditLog env.sha env.ts actor "ingest_skipped_no_storage" mount w, zeroResult, false)
    else
      let base := goClean baseRaw
      if env.mkdirOk = false then (w, zeroResult, true)
      else
        let excluded := parsePathList env.excludedRaw
        if shouldSkipMount mount base excluded then
          (auditLog env.sha env.ts actor "ingest_skipped_excluded_mount" mount w,
            zeroResult, false)
        else
          let _layout := processMountLayout env.layoutSetting
          let w1 := {w with status := ⟨"scanning", mount, "scan",
            "Scanning for media...", "", 0, 0, 0, 0, 0, 0, zeroResult⟩}
          let w2 := auditLog env.sha env.ts actor "ingest_started" mount w1
          let scanOut := goWalkDir (scanCb env.fileEnv) ⟨w2, zeroResult, 0, 0⟩ mount env.tree
          let sst := scanOut.1
          match scanOut.2 with
          | some _ =>
            ({sst.w with status := {sst.w.status with
              state := "error"
              message := "Scan failed"
              errors := sst.w.status.errors + 1}}, sst.res, true)
          | none =>
            let w3 := {sst.w with status := {sst.w.status with
              state := "ingesting"
              phase := "ingest"
              totalFiles := sst.totalFiles
              totalBytes := sst.totalBytes
              message := "Ingesting media..."}}
            let ingOut := goWalkDir (ingestCb env.sha env.ts env.fileEnv actor)
              ⟨w3, sst.res⟩ mount env.tree
            let ist := ingOut.1
            match ingOut.2 with
            | some _ =>
              ({ist.w with status := {ist.w.status with
                state := "error"
                message := "Ingest failed"
                errors := ist.w.status.errors + 1}}, ist.res, true)
            | none =>
              let w4 := auditLog env.sha env.ts actor "ingest_completed" mount ist.w
              let w5 := {w4 with status := ⟨"idle", "", "", "Idle", "",
                0, 0, 0, 0, 0, 0, ist.res⟩}
              (w5, ist.res, false)

/-! ## Facts about `copyFileAtomic` and `ingestFile` -/

theorem copyFileAtomic_fst_of_failure (env : CopyEnv) (fs : List String)
    (src dst : String) (h : (copyFileAtomic env fs src dst).2 = false) :
    (copyFileAtomic env fs src dst).1 = fs := by
  simp only [copyFileAtomic] at h ⊢
  by_cases h1 : env.openSrcOk = false
  · rw [if_pos h1]
  · rw [if_neg h1] at h ⊢
    by_cases h2 : (dst ++ ".part") ∈ fs ∨ env.createOk = false
    · rw [if_pos h2]
    · rw [if_neg h2] at h ⊢
      by_cases h3 : env.writeOk = false
      · rw [if_pos h3]
        exact List.erase_cons_head ..
      · rw [if_neg h3] at h ⊢
        cases hr : env.renameRes
        · rw [hr] at h; simp at h
        · exact List.erase_cons_head ..
        · exact List.erase_cons_head ..

theorem copyFileAtomic_fst_of_success (env : CopyEnv) (fs : List String)
    (src dst : String) (h : (copyFileAtomic env fs src dst).2 = true) :
    (copyFileAtomic env fs src dst).1 = dst :: fs := by
  simp only [copyFileAtomic] at h ⊢
  by_cases h1 : env.openSrcOk = false
  · rw [if_pos h1] at h; simp at h
  · rw [if_neg h1] at h ⊢
    by_cases h2 : (dst ++ ".part") ∈ fs ∨ env.createOk = false
    · rw [if_pos h2] at h; simp at h
    · rw [if_neg h2] at h ⊢
      by_cases h3 : env.writeOk = false
      · rw [if_pos h3] at h; simp at h
      · rw [if_neg h3] at h ⊢
        cases hr : env.renameRes
        · show dst :: ((dst ++ ".part") :: fs).erase (dst ++ ".part") = dst :: fs
          rw [List.erase_cons_head]
        · rw [hr] at h; simp at h
        · rw [hr] at h; simp at h

theorem ingestFile_error_eq (sha : String → String) (ts : String) (env : FileEnv)
    (actor src : String) (w : World) (res : Result)
    (herr : (ingestFile sha ts env actor src w res).2.2 = true) :
    ingestFile sha ts env actor src w res = (w, res, true) := by
  rcases hstat : env.stat with _ | info
  · simp [ingestFile, hstat]
  · simp only [ingestFile, hstat] at herr ⊢
    by_cases hsz : info.size = 0
    · rw [if_pos hsz] at herr; simp at herr
    · rw [if_neg hsz] at herr ⊢
      rcases hh : env.hashes with _ | ⟨crc, shaH⟩
      · simp only [hh]
      · simp only [hh] at herr ⊢
        rcases hm : env.meta with _ | mcap
        · simp only [hm]
        · simp only [hm] at herr ⊢
          by_cases hex : mediaExists w.catalog crc info.size
              (normalizeCaptureTime mcap info.modTime) = true
          · rw [if_pos hex] at herr; simp at herr
          · rw [if_neg hex] at herr ⊢
            rcases hd : env.destPath with _ | dst
            · simp only [hd]
            · simp only [hd] at herr ⊢
              by_cases hc : (copyFileAtomic env.copyEnv w.fs src dst).2 = false
              · rw [if_pos hc] at herr ⊢
                rw [copyFileAtomic_fst_of_failure _ _ _ _ hc]
              · rw [if_neg hc] at herr ⊢
                have hsucc : (copyFileAtomic env.copyEnv w.fs src dst).2 = true := by
                  cases hb : (copyFileAtomic env.copyEnv w.fs src dst).2
                  · exact absurd hb hc
                  · rfl
                cases hins : env.insertRes
                · rw [hins] at herr; simp at herr
                · rw [hins] at herr; simp at herr
                · show ({w with fs := ((copyFileAtomic env.copyEnv w.fs src dst).1).erase dst},
                    res, true) = (w, res, true)
                  rw [copyFileAtomic_fst_of_success _ _ _ _ hsucc, List.erase_cons_head]

/-! ## Concrete material for witnesses -/

/-- A stand-in hash function for concrete runs. -/
def shaId : String → String := fun s => s

/-- A concrete idle status. -/
def statusIdle : StatusM := ⟨"idle", "", "", "", "", 0, 0, 0, 0, 0, 0, zeroResult⟩

/-- A concrete empty world. -/
def wEmpty : World := ⟨[], [], [], statusIdle⟩

/-- **C5 (counterexample).** With every step up to the rename succeeding and
the rename failing with EXDEV, `copyFileAtomic` on an empty library fails
and the final destination file does not exist — there is no copy+unlink
fallback, so the claimed "the copy operation still succeeds and the final
file exists" is false at this input. -/
theorem c5_exdev_counterexample :
    (copyFileAtomic ⟨true, true, true, RenameRes.errExdev⟩ []
      "/mnt/usb/a.jpg" "/tmp/lib/a.jpg").2 = false
    ∧ "/tmp/lib/a.jpg" ∉ (copyFileAtomic ⟨true, true, true, RenameRes.errExdev⟩ []
      "/mnt/usb/a.jpg" "/tmp/lib/a.jpg").1 := by
  exact ⟨rfl, by decide⟩

/-- **C5 (amended).** When the rename of `<dst>.part` onto the final
destination fails — EXDEV or any other rename error — `copyFileAtomic`
removes the `.part` temporary and reports failure, leaving the filesystem
exactly as it was; there is no cross-device copy+unlink fallback. -/
theorem c5_rename_failure_amended (env : CopyEnv) (fs : List String)
    (src dst : String)
    (hopen : env.openSrcOk = true) (hcreate : env.createOk = true)
    (htmp : (dst ++ ".part") ∉ fs) (hwrite : env.writeOk = true)
    (hren : env.renameRes ≠ RenameRes.ok) :
    copyFileAtomic env fs src dst = (fs, false) := by
  cases hr : env.renameRes with
  | ok => exact absurd hr hren
  | errExdev => simp [copyFileAtomic, hopen, hcreate, hwrite, htmp, hr]
  | errOther => simp [copyFileAtomic, hopen, hcreate, hwrite, htmp, hr]

/-- Witness for the amended C5 theorem at a concrete EXDEV input. -/
theorem c5_rename_failure_amended_witness :
    copyFileAtomic ⟨true, true, true, RenameRes.errExdev⟩ []
      "/mnt/usb/b.jpg" "/tmp/lib/b.jpg" = ([], false) :=
  c5_rename_failure_amended ⟨true, true, true, RenameRes.errExdev⟩ []
    "/mnt/usb/b.jpg" "/tmp/lib/b.jpg" rfl rfl (by decide) rfl (by decide)

/-- **C1.** In `ingestFile`, when the dedup probe on
`(crc32, size_bytes, capture_time)` hits, nothing is copied or inserted
(filesystem and catalog unchanged), the duplicates counter rises by one and
exactly one `duplicate_skipped` audit entry is appended; and when the probe
misses but `InsertMedia` fails with a unique-constraint violation after a
successful copy, the just-written destination file is deleted (the world is
restored exactly), the file counts as a duplicate and no error is
reported. -/
theorem c1_dedup_probe_and_unique_insert
    (sha : String → String) (ts : String) (env : FileEnv) (actor src : String)
    (w : World) (res : Result) (info : GoFileInfo) (crc shaH meta : String)
    (hstat : env.stat = some info) (hsize : info.size ≠ 0)
    (hhash : env.hashes = some (crc, shaH)) (hmeta : env.meta = some meta) :
    (mediaExists w.catalog crc info.size (normalizeCaptureTime meta info.modTime) = true →
      ingestFile sha ts env actor src w res =
        (auditLog sha ts actor "duplicate_skipped" src w,
          {res with duplicates := res.duplicates + 1}, false)
      ∧ (auditLog sha ts actor "duplicate_skipped" src w).fs = w.fs
      ∧ (auditLog sha ts actor "duplicate_skipped" src w).catalog = w.catalog
      ∧ (auditLog sha ts actor "duplicate_skipped" src w).audit =
          w.audit ++ [⟨ts, actor, "duplicate_skipped", src, lastAuditHash w.audit,
            sha (entryRawOf ts actor "duplicate_skipped" src (lastAuditHash w.audit))⟩])
    ∧ (∀ dst,
        mediaExists w.catalog crc info.size (normalizeCaptureTime meta info.modTime) = false →
        env.destPath = some dst →
        (copyFileAtomic env.copyEnv w.fs src dst).2 = true →
        env.insertRes = InsertRes.errUnique →
        ingestFile sha ts env actor src w res =
          (w, {res with duplicates := res.duplicates + 1}, false)) := by
  constructor
  · intro hdup
    refine ⟨?_, rfl, rfl, rfl⟩
    simp only [ingestFile, hstat, hhash, hmeta]
    rw [if_neg hsize, if_pos hdup]
  · intro dst hdup hdst hcopy hins
    simp only [ingestFile, hstat, hhash, hmeta, hdst, hins]
    rw [if_neg hsize, if_neg (by simp [hdup]),
      if_neg (by simp [hcopy])]
    show ({w with fs := ((copyFileAtomic env.copyEnv w.fs src dst).1).erase dst},
      {res with duplicates := res.duplicates + 1}, false) =
      (w, {res with duplicates := res.duplicates + 1}, false)
    rw [copyFileAtomic_fst_of_success _ _ _ _ hcopy, List.erase_cons_head]

/-- A concrete capture instant. -/
def c1_time : GoTime := ⟨2020, 5, 17, 10, 30, 0⟩

/-- Per-file environment for a probe hit / unique violation, all syscalls
succeeding. -/
def c1_feDup : FileEnv :=
  ⟨some ⟨100, c1_time⟩, some ("abcd", "ef12"), some "", some "/tmp/lib/x.jpg",
    ⟨true, true, true, RenameRes.ok⟩, InsertRes.ok⟩

/-- A world already holding a row with the same dedup triple. -/
def c1_wDup : World :=
  ⟨[], [⟨"abcd", "ef12", 100, normalizeCaptureTime "" c1_time, "/tmp/lib/old.jpg"⟩],
    [], statusIdle⟩

/-- Like `c1_feDup` but the insert reports a unique violation. -/
def c1_feUniq : FileEnv :=
  ⟨some ⟨100, c1_time⟩, some ("abcd", "ef12"), some "", some "/tmp/lib/x.jpg",
    ⟨true, true, true, RenameRes.ok⟩, InsertRes.errUnique⟩

/-- Witness for C1 at concrete inputs: a probe hit on a populated catalog
and a unique-violation insert on an empty one. -/
theorem c1_dedup_probe_and_unique_insert_witness :
    ingestFile shaId "T" c1_feDup "adm" "/data/x.jpg" c1_wDup zeroResult =
      (auditLog shaId "T" "adm" "duplicate_skipped" "/data/x.jpg" c1_wDup,
        ⟨0, 0, 1, 0⟩, false)
    ∧ ingestFile shaId "T" c1_feUniq "adm" "/data/x.jpg" wEmpty zeroResult =
      (wEmpty, ⟨0, 0, 1, 0⟩, false) := by
  constructor
  · exact ((c1_dedup_probe_and_unique_insert shaId "T" c1_feDup "adm" "/data/x.jpg"
      c1_wDup zeroResult ⟨100, c1_time⟩ "abcd" "ef12" "" rfl (by decide) rfl rfl).1
      (by decide)).1
  · exact (c1_dedup_probe_and_unique_insert shaId "T" c1_feUniq "adm" "/data/x.jpg"
      wEmpty zeroResult ⟨100, c1_time⟩ "abcd" "ef12" "" rfl (by decide) rfl rfl).2
      "/tmp/lib/x.jpg" (by decide) rfl (by decide) rfl

/-- **C3.** When ingesting one supported file fails at any step (the
failing `ingestFile` call is the hypothesis), the ingest-pass walk callback
returns no error — the walk continues with the next entry and the mount run
is not aborted — the error counter rises by exactly one with the copied and
duplicate counters untouched, and the library filesystem, the catalog and
the audit log are exactly as before: no `.part` temporary and no orphan row
remain. -/
theorem c3_per_file_failure_counted
    (sha : String → String) (ts : String) (fe : String → FileEnv)
    (actor path : String) (st : IngestSt) (d : DirEnt) (k : String)
    (hd : d.isDir = false)
    (hsup : isSupportedMedia path = some k)
    (herr : (ingestFile sha ts (fe path) actor path
      {st.w with status := {st.w.status with currentPath := path}} st.res).2.2 = true) :
    (ingestCb sha ts fe actor st path d false).2 = none
    ∧ (ingestCb sha ts fe actor st path d false).1.res =
        {st.res with errors := st.res.errors + 1}
    ∧ (ingestCb sha ts fe actor st path d false).1.w.fs = st.w.fs
    ∧ (ingestCb sha ts fe actor st path d false).1.w.catalog = st.w.catalog
    ∧ (ingestCb sha ts fe actor st path d false).1.w.audit = st.w.audit := by
  have hfix := ingestFile_error_eq sha ts (fe path) actor path
    {st.w with status := {st.w.status with currentPath := path}} st.res herr
  simp only [ingestCb, hd, hsup, hfix]
  refine ⟨rfl, rfl, rfl, rfl, rfl⟩

/-- A per-file environment whose very first step (stat) fails. -/
def c3_fe : String → FileEnv :=
  fun _ => ⟨none, none, none, none, ⟨true, true, true, RenameRes.ok⟩, InsertRes.ok⟩

/-- Witness for C3: a stat failure on a supported file in an empty world. -/
theorem c3_per_file_failure_counted_witness :
    (ingestCb shaId "T" c3_fe "adm" ⟨wEmpty, zeroResult⟩ "/data/a.jpg"
      ⟨"a.jpg", false⟩ false).2 = none
    ∧ (ingestCb shaId "T" c3_fe "adm" ⟨wEmpty, zeroResult⟩ "/data/a.jpg"
      ⟨"a.jpg", false⟩ false).1.res = ⟨0, 0, 0, 1⟩
    ∧ (ingestCb shaId "T" c3_fe "adm" ⟨wEmpty, zeroResult⟩ "/data/a.jpg"
      ⟨"a.jpg", false⟩ false).1.w.fs = []
    ∧ (ingestCb shaId "T" c3_fe "adm" ⟨wEmpty, zeroResult⟩ "/data/a.jpg"
      ⟨"a.jpg", false⟩ false).1.w.catalog = []
    ∧ (ingestCb shaId "T" c3_fe "adm" ⟨wEmpty, zeroResult⟩ "/data/a.jpg"
      ⟨"a.jpg", false⟩ false).1.w.audit = [] :=
  c3_per_file_failure_counted shaId "T" c3_fe "adm" "/data/a.jpg"
    ⟨wEmpty, zeroResult⟩ ⟨"a.jpg", false⟩ "image" rfl (by decide) rfl

/-- **C7.** For every file `ingestFile` actually ingests (probe miss, copy
and insert succeed), when the metadata oracle supplies the capture string
`ExtractMetadata` computes from its EXIF/stat/now inputs — each available
instant being calendar-valid — the catalog gains exactly one row whose
`capture_time` is the RFC3339 UTC rendering of the instant the fallback
chain picks (EXIF datetime for an image when present, else the extractor's
stat mtime, else the current time); that string is non-empty and parses
back as RFC3339. -/
theorem c7_capture_time_fallback
    (sha : String → String) (ts : String) (env : FileEnv) (actor src : String)
    (w : World) (res : Result) (info : GoFileInfo) (crc shaH kind : String)
    (menv : MetaTimeEnv) (dst : String)
    (hstat : env.stat = some info) (hsize : info.size ≠ 0)
    (hhash : env.hashes = some (crc, shaH))
    (hmeta : env.meta = some (extractCaptureTime kind menv))
    (hex : ∀ t, menv.exifTime = some t → t.Valid)
    (hst : ∀ t, menv.statMTime = some t → t.Valid)
    (hnow : menv.now.Valid)
    (hdup : mediaExists w.catalog crc info.size
      (normalizeCaptureTime (extractCaptureTime kind menv) info.modTime) = false)
    (hdst : env.destPath = some dst)
    (hcopy : (copyFileAtomic env.copyEnv w.fs src dst).2 = true)
    (hins : env.insertRes = InsertRes.ok) :
    (ingestFile sha ts env actor src w res).1.catalog =
      w.catalog ++ [⟨crc, shaH, info.size, formatRFC3339 (captureChain kind menv), dst⟩]
    ∧ formatRFC3339 (captureChain kind menv) ≠ ""
    ∧ parseRFC3339 (formatRFC3339 (captureChain kind menv)) =
        some (captureChain kind menv) := by
  obtain ⟨heq, hne, hparse⟩ :=
    captureTime_resolved kind menv info.modTime hex hst hnow
  refine ⟨?_, by rw [heq] at hne; exact hne, by rw [heq] at hparse; exact hparse⟩
  simp only [ingestFile, hstat, hhash, hmeta, hdst, hins]
  rw [if_neg hsize, if_neg (by simp [hdup]), if_neg (by simp [hcopy])]
  show w.catalog ++ [⟨crc, shaH, info.size,
      normalizeCaptureTime (extractCaptureTime kind menv) info.modTime, dst⟩] =
    w.catalog ++ [⟨crc, shaH, info.size, formatRFC3339 (captureChain kind menv), dst⟩]
  rw [heq]

/-- Metadata instants for the C7 witness: no EXIF, no stat mtime, so the
chain falls through to the current time. -/
def c7_menv : MetaTimeEnv := ⟨none, none, ⟨2024, 1, 1, 0, 0, 0⟩⟩

/-- Per-file environment for the C7 witness, carrying the extractor's
capture string. -/
def c7_fe : FileEnv :=
  ⟨some ⟨100, ⟨2023, 6, 1, 12, 0, 0⟩⟩, some ("c1", "s1"),
    some (extractCaptureTime "video" c7_menv), some "/tmp/lib/a.mp4",
    ⟨true, true, true, RenameRes.ok⟩, InsertRes.ok⟩

/-- Witness for C7 at a concrete input where the chain resolves to `now`. -/
theorem c7_capture_time_fallback_witness :
    (ingestFile shaId "T" c7_fe "adm" "/data/a.mp4" wEmpty zeroResult).1.catalog =
      wEmpty.catalog ++ [⟨"c1", "s1", 100,
        formatRFC3339 (captureChain "video" c7_menv), "/tmp/lib/a.mp4"⟩]
    ∧ formatRFC3339 (captureChain "video" c7_menv) ≠ ""
    ∧ parseRFC3339 (formatRFC3339 (captureChain "video" c7_menv)) =
        some (captureChain "video" c7_menv) :=
  c7_capture_time_fallback shaId "T" c7_fe "adm" "/data/a.mp4" wEmpty zeroResult
    ⟨100, ⟨2023, 6, 1, 12, 0, 0⟩⟩ "c1" "s1" "video" c7_menv "/tmp/lib/a.mp4"
    rfl (by decide) rfl rfl
    (fun t h => Option.noConfusion h) (fun t h => Option.noConfusion h)
    (by decide) (by decide) rfl (by decide) rfl

/-- **C4.** `ProcessMount` refuses a mount whenever `shouldSkipMount`
holds — that is, when the cleaned mount contains or is contained by the
cleaned base storage directory (equality included, by `IsPathWithin`'s
reflexivity on normalized paths) or stands in either containment relation
with an excluded mount: it returns the zero result (nothing scanned,
copied, duplicated or failed) with no error, and appends exactly one
`ingest_skipped_excluded_mount` audit entry, touching neither the
filesystem nor the catalog. -/
theorem c4_excluded_mount_refused
    (env : PMEnv) (w : World) (mountPath actor baseRaw : String)
    (hbase : env.baseSetting = some baseRaw)
    (hne : goTrimSpace baseRaw ≠ "")
    (hmk : env.mkdirOk = true)
    (hskip : shouldSkipMount (goClean mountPath) (goClean baseRaw)
      (parsePathList env.excludedRaw) = true) :
    processMount env w mountPath actor =
      (auditLog env.sha env.ts actor "ingest_skipped_excluded_mount"
        (goClean mountPath) w, zeroResult, false)
    ∧ (auditLog env.sha env.ts actor "ingest_skipped_excluded_mount"
        (goClean mountPath) w).fs = w.fs
    ∧ (auditLog env.sha env.ts actor "ingest_skipped_excluded_mount"
        (goClean mountPath) w).catalog = w.catalog
    ∧ (auditLog env.sha env.ts actor "ingest_skipped_excluded_mount"
        (goClean mountPath) w).audit =
        w.audit ++ [⟨env.ts, actor, "ingest_skipped_excluded_mount",
          goClean mountPath, lastAuditHash w.audit,
          env.sha (entryRawOf env.ts actor "ingest_skipped_excluded_mount"
            (goClean mountPath) (lastAuditHash w.audit))⟩] := by
  refine ⟨?_, rfl, rfl, rfl⟩
  simp only [processMount, hbase]
  rw [if_neg hne, if_neg (by simp [hmk]), if_pos hskip]

/-- Mount environment for the C4 witness: base storage `/tmp/lib`, no
exclusions, a readable tree. -/
def c4_env : PMEnv :=
  ⟨shaId, "T", some "/tmp/lib", true, "", none, FsTree.dir "lib" true [],
    fun _ => ⟨none, none, none, none, ⟨true, true, true, RenameRes.ok⟩, InsertRes.ok⟩⟩

/-- Witness for C4: ingesting the base storage directory itself is refused
with a zero result (in particular `copied = 0`) and one audit entry. -/
theorem c4_excluded_mount_refused_witness :
    processMount c4_env wEmpty "/tmp/lib" "system" =
      (auditLog shaId "T" "system" "ingest_skipped_excluded_mount"
        (goClean "/tmp/lib") wEmpty, zeroResult, false)
    ∧ (auditLog shaId "T" "system" "ingest_skipped_excluded_mount"
        (goClean "/tmp/lib") wEmpty).fs = wEmpty.fs
    ∧ (auditLog shaId "T" "system" "ingest_skipped_excluded_mount"
        (goClean "/tmp/lib") wEmpty).catalog = wEmpty.catalog
    ∧ (auditLog shaId "T" "system" "ingest_skipped_excluded_mount"
        (goClean "/tmp/lib") wEmpty).audit =
        wEmpty.audit ++ [⟨"T", "system", "ingest_skipped_excluded_mount",
          goClean "/tmp/lib", lastAuditHash wEmpty.audit,
          shaId (entryRawOf "T" "system" "ingest_skipped_excluded_mount"
            (goClean "/tmp/lib") (lastAuditHash wEmpty.audit))⟩] :=
  c4_excluded_mount_refused c4_env wEmpty "/tmp/lib" "system" "/tmp/lib"
    rfl (by decide) rfl (by decide)

/-- Scan pass over an unreadable, non-hidden root directory: the swallowed
`ReadDir` error is counted once and the walk reports success. -/
theorem scan_unreadable_root (fe : String → FileEnv) (mount dname : String)
    (hhid : goStartsWith dname "." = false) (s : ScanSt) :
    goWalkDir (scanCb fe) s mount (FsTree.dir dname false []) =
      ({s with res := {s.res with errors := s.res.errors + 1}}, none) := by
  simp [goWalkDir, walkNode, walkChildren, scanCb, FsTree.ent, hhid]

/-- Ingest pass over an unreadable, non-hidden root directory: likewise one
counted error and a successful walk. -/
theorem ingest_unreadable_root (sha : String → String) (ts : String)
    (fe : String → FileEnv) (actor mount dname : String)
    (hhid : goStartsWith dname "." = false) (s : IngestSt) :
    goWalkDir (ingestCb sha ts fe actor) s mount (FsTree.dir dname false []) =
      ({s with res := {s.res with errors := s.res.errors + 1}}, none) := by
  simp [goWalkDir, walkNode, walkChildren, ingestCb, FsTree.ent, hhid]

/-- **C6 (amended).** A walk error on the mount root — `ReadDir` failing on
an unreadable root directory — does not abort `ProcessMount`: both pass
callbacks swallow the error while counting it (so `Result.Errors` ends at
2, once per pass), the `scanErr`/`walkErr` abort branches stay dead, the
run writes `ingest_completed` and finishes with no returned error and the
published status back at `idle` (never `error`), carrying the partial
result. -/
theorem c6_root_walk_error_amended
    (env : PMEnv) (w : World) (mountPath actor baseRaw dname : String)
    (hbase : env.baseSetting = some baseRaw)
    (hne : goTrimSpace baseRaw ≠ "")
    (hmk : env.mkdirOk = true)
    (hskip : shouldSkipMount (goClean mountPath) (goClean baseRaw)
      (parsePathList env.excludedRaw) = false)
    (htree : env.tree = FsTree.dir dname false [])
    (hhid : goStartsWith dname "." = false) :
    (processMount env w mountPath actor).2.2 = false
    ∧ (processMount env w mountPath actor).2.1 = ⟨0, 0, 0, 2⟩
    ∧ (processMount env w mountPath actor).1.status.state = "idle"
    ∧ (processMount env w mountPath actor).1.status.lastResult = ⟨0, 0, 0, 2⟩ := by
  simp only [processMount, hbase, htree]
  rw [if_neg hne, if_neg (by simp [hmk]), if_neg (by simp [hskip])]
  rw [scan_unreadable_root env.fileEnv (goClean mountPath) dname hhid]
  rw [ingest_unreadable_root env.sha env.ts env.fileEnv actor
    (goClean mountPath) dname hhid]
  exact ⟨rfl, rfl, rfl, rfl⟩

/-- Mount environment for C6: base storage `/tmp/lib`, no exclusions, and
an unreadable mount root directory. -/
def c6_env : PMEnv :=
  ⟨shaId, "T", some "/tmp/lib", true, "", none, FsTree.dir "data" false [],
    fun _ => ⟨none, none, none, none, ⟨true, true, true, RenameRes.ok⟩, InsertRes.ok⟩⟩

/-- **C6 (counterexample).** With an unreadable mount root (the walk
callback is invoked with a non-nil error — visible in the two counted
errors, one per pass), `ProcessMount` does **not** set the published status
to `error` and does **not** return an error: the callbacks swallow every
walk error, so the run ends back at `idle` — refuting the claimed
`status=error` outcome at this input. -/
theorem c6_root_walk_error_counterexample :
    (processMount c6_env wEmpty "/data" "system").2.1.errors = 2
    ∧ (processMount c6_env wEmpty "/data" "system").1.status.state = "idle"
    ∧ (processMount c6_env wEmpty "/data" "system").1.status.state ≠ "error"
    ∧ (processMount c6_env wEmpty "/data" "system").2.2 = false := by
  simp only [processMount, c6_env]
  rw [if_neg (show ¬(goTrimSpace "/tmp/lib" = "") from by decide)]
  rw [if_neg (show ¬(true = false) from by decide)]
  rw [if_neg (show ¬(shouldSkipMount (goClean "/data") (goClean "/tmp/lib")
    (parsePathList "") = true) from by decide)]
  rw [scan_unreadable_root _ _ _ (by decide)]
  rw [ingest_unreadable_root _ _ _ _ _ _ (by decide)]
  exact ⟨rfl, rfl, by decide, rfl⟩

/-- Witness for the amended C6 theorem at the same concrete environment. -/
theorem c6_root_walk_error_amended_witness :
    (processMount c6_env wEmpty "/data" "system").2.2 = false
    ∧ (processMount c6_env wEmpty "/data" "system").2.1 = ⟨0, 0, 0, 2⟩
    ∧ (processMount c6_env wEmpty "/data" "system").1.status.state = "idle"
    ∧ (processMount c6_env wEmpty "/data" "system").1.status.lastResult = ⟨0, 0, 0, 2⟩ :=
  c6_root_walk_error_amended c6_env wEmpty "/data" "system" "/tmp/lib" "data"
    rfl (by decide) rfl (by decide) rfl (by decide)
